import Mathlib

/-! A first-fit arena allocator (`mem.c`)

Shallow embedding of `Mem_Init`, `Mem_Alloc`, `Mem_Free` and `Mem_Dump`.

* Addresses are mathematical integers, `NULL` is `0`.
* A node of the intrusive list is a `block_header`: the address of the header
  itself and its `size_status` word.  The `next` field is the successor in the
  Lean list (the last node has `next == NULL`), and `list_head == NULL` is the
  empty list.
* `int` is 32 bits wide, `size_t` is 64 bits wide; conversions are explicit
  (`toInt`, `toSizeT`).  `/` and `%` on `int` truncate towards zero
  (`Int.tdiv`, `Int.tmod`).
* `H` stands for `sizeof(block_header)` and is a parameter everywhere.
-/

namespace Mem

/-- Header of a block: its own address and the `size_status` word (payload
size, low bit set for a busy block). -/
structure block_header where
  addr : Int
  size_status : Int
deriving DecidableEq, Repr

/-- The null pointer. -/
def NULL : Int := 0

/-- Conversion of a mathematical integer to a 32 bit `int` (wrap around). -/
def toInt (x : Int) : Int := (x + 2147483648) % 4294967296 - 2147483648

/-- Conversion of a mathematical integer to a 64 bit `size_t` (wrap around). -/
def toSizeT (x : Int) : Int := x % 18446744073709551616

/-- Global state of the library: the block list hanging off `list_head` and the
`allocated_once` flag of `Mem_Init`. -/
structure State where
  list_head : List block_header
  allocated_once : Int
deriving DecidableEq, Repr

/-- State of the library at program start. -/
def State.initial : State := ⟨[], 0⟩

/-- What the operating system answers during one call of `Mem_Init`:
`getpagesize()`, the descriptor from `open("/dev/zero")`, and the result of
`mmap` (`none` for `MAP_FAILED`). -/
structure Env where
  pagesize : Int
  fd : Int
  space_ptr : Option Int
deriving DecidableEq, Repr

/-- Embedding of `Mem_Init` (lines 47-100). -/
def Mem_Init (H : Int) (env : Env) (s : State) (sizeOfRegion : Int) : Int × State :=
  if 0 ≠ s.allocated_once then (-1, s)
  else if sizeOfRegion ≤ 0 then (-1, s)
  else
    let pagesize := env.pagesize
    let padsize := sizeOfRegion.tmod pagesize
    let padsize := (toInt (pagesize - padsize)).tmod pagesize
    let alloc_size := toInt (sizeOfRegion + padsize)
    if -1 = env.fd then (-1, s)
    else
      match env.space_ptr with
      | none => (-1, { s with allocated_once := 0 })
      | some space_ptr =>
        (0, { list_head := [⟨space_ptr, toInt (alloc_size - H)⟩], allocated_once := 1 })

/-- Rounding of the requested size to a multiple of 4 (lines 115-116). -/
def roundSize (size : Int) : Int :=
  toInt (toInt (1 + (toInt (size - 1)).tdiv 4) * 4)

/-- The `while` loop of `Mem_Alloc` (lines 122-158), started at `head_node`;
`size` is already rounded.  Returns the pointer handed to the caller (`NULL`
when the walk falls off the list) and the list from `head_node` on. -/
def Mem_Alloc_loop (H size : Int) : List block_header → Int × List block_header
  | [] => (NULL, [])
  | head_node :: next =>
    let node_size := head_node.size_status
    if node_size.tmod 2 = 0 ∧ toSizeT (size + H) < toSizeT node_size then
      if toSizeT (toInt (node_size - size) - H) > 0 then
        let temp_node : block_header :=
          ⟨head_node.addr + H + size, toInt (toSizeT (head_node.size_status - H - size))⟩
        (head_node.addr + H * H,
          { head_node with size_status := toInt (size + 1) } :: temp_node :: next)
      else
        (head_node.addr + H * H,
          (if next ≠ [] then { head_node with size_status := toInt (size + 1) }
            else head_node) :: next)
    else
      let r := Mem_Alloc_loop H size next
      (r.1, head_node :: r.2)

/-- Embedding of `Mem_Alloc` (lines 112-167): result pointer and new list. -/
def Mem_Alloc (H : Int) (list_head : List block_header) (size : Int) :
    Int × List block_header :=
  if size < 1 then (NULL, list_head)
  else Mem_Alloc_loop H (roundSize size) list_head

/-- Body of the `if (head_node->size_status%2 == 1)` branch of `Mem_Free`
(lines 195-222): the list from `prev_node` (or from `head_node` when there is
no predecessor) after `head_node` has been released. -/
def release (H : Int) (prev_node : Option block_header) (head_node : block_header)
    (next : List block_header) : List block_header :=
  let head_node : block_header :=
    { head_node with size_status := toInt (head_node.size_status - 1) }
  let right : block_header × List block_header :=
    match next with
    | [] => (head_node, [])
    | n :: next_next =>
      if n.size_status.tmod 2 = 0 then
        ({ head_node with
            size_status :=
              toInt (toSizeT (toInt (head_node.size_status + n.size_status) + H)) },
          next_next)
      else (head_node, n :: next_next)
  match prev_node with
  | none => right.1 :: right.2
  | some p =>
    if p.size_status.tmod 2 = 0 then
      { p with
        size_status :=
          toInt (toSizeT (toInt (p.size_status + right.1.size_status) + H)) } :: right.2
    else p :: right.1 :: right.2

/-- The `while` loop of `Mem_Free` (lines 190-230) with `temp_ptr = ptr - H`.
Returns the status code and the list from `prev_node` on (from `head_node` on
when `prev_node` is `NULL`). -/
def Mem_Free_loop (H temp_ptr : Int) :
    Option block_header → List block_header → Int × List block_header
  | prev_node, [] => (-1, prev_node.toList)
  | prev_node, head_node :: next =>
    if head_node.addr = temp_ptr then
      if head_node.size_status.tmod 2 = 1 then
        (0, release H prev_node head_node next)
      else (-1, prev_node.toList ++ head_node :: next)
    else
      let r := Mem_Free_loop H temp_ptr (some head_node) next
      (r.1, prev_node.toList ++ r.2)

/-- Embedding of `Mem_Free` (lines 178-238): status code and new list. -/
def Mem_Free (H : Int) (list_head : List block_header) (ptr : Int) :
    Int × List block_header :=
  if ptr = NULL then (-1, list_head)
  else Mem_Free_loop H (ptr - H) none list_head

/-- One line of the table printed by `Mem_Dump` (line 290). -/
structure DumpRow where
  counter : Int
  busy : Bool
  Begin : Int
  End : Int
  Size : Int
  t_Size : Int
  t_Begin : Int
deriving DecidableEq, Repr

/-- Local variables of `Mem_Dump` that live across the loop, and the lines
printed so far. -/
structure DumpState where
  free_size : Int
  busy_size : Int
  total_size : Int
  counter : Int
  rows : List DumpRow
deriving DecidableEq, Repr

/-- The `while` loop of `Mem_Dump` (lines 271-294), started at `current`. -/
def Mem_Dump_loop (H : Int) : List block_header → DumpState → DumpState
  | [], d => d
  | current :: next, d =>
    let t_Begin := current.addr
    let Begin := t_Begin + H
    let Size := current.size_status
    let busy : Bool := decide (Size % 2 ≠ 0)
    let Size := if busy then toInt (Size - 1) else Size
    let t_Size := toInt (Size + H)
    let busy_size := if busy then toInt (d.busy_size + t_Size) else d.busy_size
    let free_size := if busy then d.free_size else toInt (d.free_size + t_Size)
    let End := Begin + Size
    Mem_Dump_loop H next
      { free_size := free_size
        busy_size := busy_size
        total_size := toInt (d.total_size + t_Size)
        counter := toInt (d.counter + 1)
        rows := d.rows ++ [⟨d.counter, busy, Begin, End, Size, t_Size, t_Begin⟩] }

/-- What `Mem_Dump` prints (lines 249-304): the table, then the three totals
`Total busy size`, `Total free size` and `Total size`; `total_size` is the
local variable of that name at the end of the loop.  The list is only read. -/
structure DumpReport where
  rows : List DumpRow
  total_busy : Int
  total_free : Int
  total : Int
  total_size : Int
deriving DecidableEq, Repr

/-- Embedding of `Mem_Dump` (lines 249-304). -/
def Mem_Dump (H : Int) (list_head : List block_header) : DumpReport :=
  let d := Mem_Dump_loop H list_head ⟨0, 0, 0, 1, []⟩
  { rows := d.rows
    total_busy := d.busy_size
    total_free := d.free_size
    total := toInt (d.busy_size + d.free_size)
    total_size := d.total_size }

/-! ## Vocabulary of the specification -/

/-- A block is busy when the low bit of `size_status` is set (line 27). -/
def Busy (b : block_header) : Prop := b.size_status % 2 = 1

/-- A block is free when the low bit of `size_status` is clear (line 26). -/
def Free (b : block_header) : Prop := b.size_status % 2 = 0

instance (b : block_header) : Decidable (Busy b) := by unfold Busy; infer_instance

instance (b : block_header) : Decidable (Free b) := by unfold Free; infer_instance

/-- Payload size of a block: `size_status` without the status bit (lines 29-30). -/
def payload (b : block_header) : Int := b.size_status - b.size_status % 2

/-- Least multiple of `P` that is at least `n` (for `0 < P`). -/
def roundUp (n P : Int) : Int := n + (P - n % P) % P

/-- The fields of a list are values of type `int` that hold a size (lines 24-34):
`size_status` is non-negative and below `2^31`. -/
def WellTyped (l : List block_header) : Prop :=
  ∀ b ∈ l, 0 ≤ b.size_status ∧ b.size_status < 2147483648

/-- Facts about the platform used throughout: the header size and the page
size are positive multiples of 4 and a header fits in a page. -/
def Platform (H pagesize : Int) : Prop :=
  0 < H ∧ H % 4 = 0 ∧ H < pagesize ∧ pagesize % 4 = 0

instance (H pagesize : Int) : Decidable (Platform H pagesize) := by
  unfold Platform; infer_instance

/-- States of the block list that a program can reach: a successful `Mem_Init`
on the initial state (with `mmap` returning the non-null address `base`),
followed by any calls of `Mem_Alloc` (with an `int` argument) and `Mem_Free`. -/
inductive Reachable (H pagesize sizeOfRegion base : Int) : List block_header → Prop
  | init (fd : Int) :
      0 < base →
      (Mem_Init H ⟨pagesize, fd, some base⟩ State.initial sizeOfRegion).1 = 0 →
      Reachable H pagesize sizeOfRegion base
        (Mem_Init H ⟨pagesize, fd, some base⟩ State.initial sizeOfRegion).2.list_head
  | alloc (l : List block_header) (size : Int) :
      Reachable H pagesize sizeOfRegion base l →
      -2147483648 ≤ size → size < 2147483648 →
      Reachable H pagesize sizeOfRegion base (Mem_Alloc H l size).2
  | free (l : List block_header) (ptr : Int) :
      Reachable H pagesize sizeOfRegion base l →
      Reachable H pagesize sizeOfRegion base (Mem_Free H l ptr).2

/-- Layout of a block list between address `a` and address `e`: every header
sits where the previous block ends, sizes are non-negative, and `size_status`
is a multiple of 4 (free) or one more than a multiple of 4 (busy). -/
def Chain (H : Int) : Int → List block_header → Int → Prop
  | a, [], e => a = e
  | a, b :: l, e =>
    b.addr = a ∧ 0 ≤ b.size_status ∧ (b.size_status % 4 = 0 ∨ b.size_status % 4 = 1) ∧
      Chain H (a + H + payload b) l e

/-- What is used of the rounded request: it is a multiple of 4, and either
positive or the wrapped value `-2^31`. -/
def RoundedReq (size : Int) : Prop :=
  size % 4 = 0 ∧ size < 2147483648 ∧ (0 < size ∨ size = -2147483648)

/-! ## Coalescing as the specification words it -/

/-- The predecessor that a release absorbs: the block before `B` when it is
free (4.3 step 7). -/
def absorbedLeft (pre : List block_header) : List block_header :=
  match pre.getLast? with
  | some P => if Free P then [P] else []
  | none => []

/-- The successor that a release absorbs: the block after `B` when it is free
(4.3 step 6). -/
def absorbedRight (post : List block_header) : List block_header :=
  match post with
  | N :: _ => if Free N then [N] else []
  | [] => []

/-- The run of blocks that a release of `B` merges: a free predecessor, `B`,
a free successor. -/
def mergedRun (pre : List block_header) (B : block_header) (post : List block_header) :
    List block_header :=
  absorbedLeft pre ++ B :: absorbedRight post

/-- The block that replaces the run: it sits at the lowest address of the run
and its size is the sum of the payloads plus `H` for each absorbed block. -/
def mergedBlock (H : Int) (pre : List block_header) (B : block_header)
    (post : List block_header) : block_header :=
  ⟨((mergedRun pre B post).map block_header.addr).foldl min B.addr,
    ((mergedRun pre B post).map payload).sum + H * (((mergedRun pre B post).length : Int) - 1)⟩

/-- The list `pre ++ B :: post` after the release of `B`, in the words of the
specification: the run is replaced by the merged block, the rest is kept. -/
def coalesced (H : Int) (pre : List block_header) (B : block_header)
    (post : List block_header) : List block_header :=
  pre.take (pre.length - (absorbedLeft pre).length) ++
    mergedBlock H pre B post :: post.drop (absorbedRight post).length

/-- A block that the request can be carved from (4.2 step 2): it is free and
its payload capacity strictly exceeds `r + H`. -/
def Fits (H r : Int) (c : block_header) : Prop := Free c ∧ r + H < c.size_status

instance (H r : Int) (c : block_header) : Decidable (Fits H r c) := by
  unfold Fits; infer_instance

/-- The coalescing invariant: no two neighbours of the list are both free. -/
def NoAdjFree (l : List block_header) : Prop :=
  List.Chain' (fun x y => ¬ (Free x ∧ Free y)) l

/-- The length that `Mem_Init` asks `mmap` for (lines 71-74). -/
def Mem_Init_alloc_size (pagesize sizeOfRegion : Int) : Int :=
  let padsize := sizeOfRegion.tmod pagesize
  let padsize := (toInt (pagesize - padsize)).tmod pagesize
  toInt (sizeOfRegion + padsize)

/-- One call of the library by the program; a call of `Mem_Init` comes with
what the operating system answers during it. -/
inductive Call where
  | init (env : Env) (sizeOfRegion : Int)
  | alloc (size : Int)
  | free (ptr : Int)
  | dump
deriving DecidableEq, Repr

/-- Effect of one call on the global state, with the value it returns (0 for
`Mem_Dump`, which returns nothing and writes nothing). -/
def step (H : Int) (s : State) : Call → Int × State
  | Call.init env sizeOfRegion => Mem_Init H env s sizeOfRegion
  | Call.alloc size =>
    ((Mem_Alloc H s.list_head size).1, { s with list_head := (Mem_Alloc H s.list_head size).2 })
  | Call.free ptr =>
    ((Mem_Free H s.list_head ptr).1, { s with list_head := (Mem_Free H s.list_head ptr).2 })
  | Call.dump => (0, s)

/-- State after a sequence of calls. -/
def run (H : Int) : State → List Call → State
  | s, [] => s
  | s, c :: cs => run H (step H s c).2 cs

/-- Some call of `Mem_Init` in the sequence, run from `s`, returned 0. -/
def initSucceeded (H : Int) : State → List Call → Bool
  | _, [] => false
  | s, c :: cs =>
    (match c with
      | Call.init env sizeOfRegion => decide ((Mem_Init H env s sizeOfRegion).1 = 0)
      | _ => false) || initSucceeded H (step H s c).2 cs

/-- Sum over the busy blocks of payload size plus header size. -/
def busyTotal (H : Int) (l : List block_header) : Int :=
  ((l.filter (fun b => decide (Busy b))).map (fun b => payload b + H)).sum

/-- Sum over the free blocks of payload size plus header size. -/
def freeTotal (H : Int) (l : List block_header) : Int :=
  ((l.filter (fun b => decide (Free b))).map (fun b => payload b + H)).sum

/-! ## Arithmetic of the machine types -/

theorem toInt_of_range {x : Int} (h1 : -2147483648 ≤ x) (h2 : x < 2147483648) : toInt x = x := by
  unfold toInt; omega

theorem toSizeT_of_range {x : Int} (h1 : 0 ≤ x) (h2 : x < 18446744073709551616) :
    toSizeT x = x := by
  unfold toSizeT; omega

theorem toSizeT_of_neg {x : Int} (h1 : -18446744073709551616 ≤ x) (h2 : x < 0) :
    toSizeT x = x + 18446744073709551616 := by
  unfold toSizeT; omega

theorem tmod_two_of_nonneg {x : Int} (h : 0 ≤ x) : x.tmod 2 = x % 2 :=
  Int.tmod_eq_emod h (by decide)

theorem roundSize_of_range {size : Int} (h1 : 1 ≤ size) (h2 : size ≤ 2147483644) :
    roundSize size = 4 * ((size + 3) / 4) := by
  unfold roundSize
  have e1 : toInt (size - 1) = size - 1 := toInt_of_range (by omega) (by omega)
  have e2 : (size - 1).tdiv 4 = (size - 1) / 4 := Int.tdiv_eq_ediv (by omega) (by decide)
  rw [e1, e2]
  have e3 : toInt (1 + (size - 1) / 4) = 1 + (size - 1) / 4 :=
    toInt_of_range (by omega) (by omega)
  rw [e3]
  have e4 : toInt ((1 + (size - 1) / 4) * 4) = (1 + (size - 1) / 4) * 4 :=
    toInt_of_range (by omega) (by omega)
  rw [e4]; omega

theorem roundSize_overflow {size : Int} (h1 : 2147483644 < size) (h2 : size < 2147483648) :
    roundSize size = -2147483648 := by
  unfold roundSize
  have e1 : toInt (size - 1) = size - 1 := toInt_of_range (by omega) (by omega)
  have e2 : (size - 1).tdiv 4 = (size - 1) / 4 := Int.tdiv_eq_ediv (by omega) (by decide)
  rw [e1, e2]
  have e3 : toInt (1 + (size - 1) / 4) = 1 + (size - 1) / 4 :=
    toInt_of_range (by omega) (by omega)
  rw [e3]
  have e4 : (1 + (size - 1) / 4) * 4 = 2147483648 := by omega
  rw [e4]; rfl

/-- The rounded size is the least multiple of 4 that is at least `size`. -/
theorem roundSize_unique {size r : Int} (h1 : 1 ≤ size) (h2 : size ≤ 2147483644)
    (hr4 : r % 4 = 0) (hle : size ≤ r) (hlt : r < size + 4) : roundSize size = r := by
  rw [roundSize_of_range h1 h2]; omega

/-! ## The layout invariant -/

theorem Chain.le {H : Int} (hH : 0 ≤ H) :
    ∀ {l : List block_header} {a e : Int}, Chain H a l e → a ≤ e := by
  intro l
  induction l with
  | nil => intro a e h; simp only [Chain] at h; omega
  | cons b l ih =>
    intro a e h
    simp only [Chain, payload] at h
    have := ih h.2.2.2
    omega

theorem Chain.append {H : Int} :
    ∀ {l₁ l₂ : List block_header} {a m e : Int},
      Chain H a l₁ m → Chain H m l₂ e → Chain H a (l₁ ++ l₂) e := by
  intro l₁
  induction l₁ with
  | nil => intro l₂ a m e h1 h2; simp only [Chain] at h1; subst h1; simpa using h2
  | cons b l ih =>
    intro l₂ a m e h1 h2
    simp only [Chain] at h1
    simp only [List.cons_append, Chain]
    exact ⟨h1.1, h1.2.1, h1.2.2.1, ih h1.2.2.2 h2⟩

theorem Chain.split {H : Int} :
    ∀ {l₁ l₂ : List block_header} {a e : Int},
      Chain H a (l₁ ++ l₂) e → ∃ m, Chain H a l₁ m ∧ Chain H m l₂ e := by
  intro l₁
  induction l₁ with
  | nil => intro l₂ a e h; exact ⟨a, by simp [Chain], by simpa using h⟩
  | cons b l ih =>
    intro l₂ a e h
    simp only [List.cons_append, Chain] at h
    obtain ⟨m, h1, h2⟩ := ih h.2.2.2
    exact ⟨m, by simp only [Chain]; exact ⟨h.1, h.2.1, h.2.2.1, h1⟩, h2⟩

/-- Every block of a laid out list starts at or after the first address and
ends at or before the last one. -/
theorem Chain.mem_bounds {H : Int} (hH : 0 ≤ H) :
    ∀ {l : List block_header} {a e : Int}, Chain H a l e → ∀ b ∈ l,
      a ≤ b.addr ∧ b.addr + H + payload b ≤ e ∧ 0 ≤ b.size_status ∧
        (b.size_status % 4 = 0 ∨ b.size_status % 4 = 1) := by
  intro l
  induction l with
  | nil => intro a e _ b hb; cases hb
  | cons c l ih =>
    intro a e h b hb
    simp only [Chain] at h
    have hle := Chain.le hH h.2.2.2
    rcases List.mem_cons.1 hb with rfl | hb
    · exact ⟨by omega, by omega, h.2.1, h.2.2.1⟩
    · have := ih h.2.2.2 b hb
      have hp : 0 ≤ payload c := by unfold payload; omega
      exact ⟨by omega, this.2.1, this.2.2⟩

theorem Chain.wellTyped {H : Int} (hH : 0 < H) {l : List block_header} {a e : Int}
    (h : Chain H a l e) (hb : e - a < 2147483648) : WellTyped l := by
  intro b hbl
  have := Chain.mem_bounds (le_of_lt hH) h b hbl
  unfold payload at this
  exact ⟨this.2.2.1, by omega⟩

/-- Addresses strictly increase along a laid out list. -/
theorem Chain.addr_lt {H : Int} (hH : 0 < H) :
    ∀ {l : List block_header} {a e : Int}, Chain H a l e →
      List.Pairwise (fun x y => x.addr < y.addr) l := by
  intro l
  induction l with
  | nil => intro a e _; exact List.Pairwise.nil
  | cons c l ih =>
    intro a e h
    simp only [Chain] at h
    refine List.Pairwise.cons ?_ (ih h.2.2.2)
    intro b hb
    have := Chain.mem_bounds (le_of_lt hH) h.2.2.2 b hb
    have hp : 0 ≤ payload c := by unfold payload; omega
    omega

theorem Chain.nodup {H : Int} (hH : 0 < H) {l : List block_header} {a e : Int}
    (h : Chain H a l e) : (l.map block_header.addr).Nodup := by
  have := Chain.addr_lt hH h
  rw [List.Nodup, List.pairwise_map]
  exact this.imp (fun h => ne_of_lt h)

theorem roundSize_roundedReq {size : Int} (h1 : 1 ≤ size) (h2 : size < 2147483648) :
    RoundedReq (roundSize size) := by
  unfold RoundedReq
  by_cases h : size ≤ 2147483644
  · rw [roundSize_of_range h1 h]; omega
  · rw [roundSize_overflow (by omega) h2]; omega

theorem Mem_Alloc_loop_chain {H size : Int} (hH : 0 < H) (hH4 : H % 4 = 0)
    (hs : RoundedReq size) :
    ∀ {l : List block_header} {a e : Int}, e - a < 2147483648 → Chain H a l e →
      Chain H a (Mem_Alloc_loop H size l).2 e := by
  intro l
  induction l with
  | nil => intro a e _ h; simpa [Mem_Alloc_loop] using h
  | cons b l ih =>
    intro a e hb h
    have hc := h
    simp only [Chain, payload] at h
    obtain ⟨h1, h2, h3, h4⟩ := h
    have hle := Chain.le (le_of_lt hH) h4
    unfold RoundedReq at hs
    simp only [Mem_Alloc_loop]
    split
    · rename_i hcond
      rw [tmod_two_of_nonneg h2] at hcond
      have hfit : 0 < size ∧ size + H < b.size_status := by
        have := hcond.2
        unfold toSizeT at this
        omega
      have e1 : toInt (size + 1) = size + 1 := toInt_of_range (by omega) (by omega)
      have e2 : toInt (b.size_status - size) = b.size_status - size :=
        toInt_of_range (by omega) (by omega)
      have e3 : toSizeT (b.size_status - size - H) = b.size_status - size - H :=
        toSizeT_of_range (by omega) (by omega)
      have e4 : toSizeT (b.size_status - H - size) = b.size_status - H - size :=
        toSizeT_of_range (by omega) (by omega)
      have e5 : toInt (b.size_status - H - size) = b.size_status - H - size :=
        toInt_of_range (by omega) (by omega)
      rw [e2, e3, if_pos (by omega), e1, e4, e5]
      simp only [Chain, payload]
      refine ⟨h1, by omega, by omega, by omega, by omega, by omega, ?_⟩
      have : a + H + (size + 1 - (size + 1) % 2) + H +
          (b.size_status - H - size - (b.size_status - H - size) % 2) =
          a + H + (b.size_status - b.size_status % 2) := by omega
      rw [this]; exact h4
    · simp only [Chain, payload]
      exact ⟨h1, h2, h3, ih (by omega) h4⟩

theorem Mem_Alloc_chain {H : Int} (hH : 0 < H) (hH4 : H % 4 = 0)
    {l : List block_header} {a e size : Int} (hsz : size < 2147483648)
    (hb : e - a < 2147483648) (h : Chain H a l e) : Chain H a (Mem_Alloc H l size).2 e := by
  unfold Mem_Alloc
  split
  · exact h
  · exact Mem_Alloc_loop_chain hH hH4 (roundSize_roundedReq (by omega) hsz) hb h

theorem Chain.cast {H : Int} {l : List block_header} {a a' e : Int} (h : Chain H a l e)
    (ha : a = a') : Chain H a' l e := ha ▸ h

theorem release_chain {H : Int} (hH : 0 < H) (hH4 : H % 4 = 0)
    {prev_node : Option block_header} {head_node : block_header} {next : List block_header}
    {a e : Int} (hb : e - a < 2147483648)
    (h : Chain H a (prev_node.toList ++ head_node :: next) e)
    (hbusy : head_node.size_status.tmod 2 = 1) :
    Chain H a (release H prev_node head_node next) e := by
  have hH0 : 0 ≤ H := le_of_lt hH
  cases prev_node with
  | none =>
    simp only [Option.toList, List.nil_append, Chain, payload] at h
    obtain ⟨h1, h2, h3, h4⟩ := h
    rw [tmod_two_of_nonneg h2] at hbusy
    cases next with
    | nil =>
      have hle := Chain.le hH0 h4
      simp only [release, Chain, payload]
      simp only [Chain] at h4
      unfold toInt
      refine ⟨h1, by omega, by omega, by omega⟩
    | cons n nn =>
      simp only [Chain, payload] at h4
      obtain ⟨g1, g2, g3, g4⟩ := h4
      have hle := Chain.le hH0 g4
      simp only [release]
      split
      · rename_i hfree
        rw [tmod_two_of_nonneg g2] at hfree
        simp only [Chain, payload]
        refine ⟨h1, by unfold toInt toSizeT; omega, by unfold toInt toSizeT; omega, ?_⟩
        exact g4.cast (by unfold toInt toSizeT; omega)
      · simp only [Chain, payload]
        refine ⟨h1, by unfold toInt; omega, by unfold toInt; omega, by unfold toInt; omega,
          g2, g3, ?_⟩
        exact g4.cast (by unfold toInt; omega)
  | some p =>
    simp only [Option.toList, List.singleton_append, Chain, payload] at h
    obtain ⟨p1, p2, p3, h1, h2, h3, h4⟩ := h
    rw [tmod_two_of_nonneg h2] at hbusy
    cases next with
    | nil =>
      have hle := Chain.le hH0 h4
      simp only [Chain] at h4
      simp only [release]
      split
      · rename_i hfree
        rw [tmod_two_of_nonneg p2] at hfree
        simp only [Chain, payload]
        refine ⟨p1, by unfold toInt toSizeT; omega, by unfold toInt toSizeT; omega, ?_⟩
        unfold toInt toSizeT; omega
      · simp only [Chain, payload]
        refine ⟨p1, p2, p3, h1, by unfold toInt; omega, by unfold toInt; omega, ?_⟩
        unfold toInt; omega
    | cons n nn =>
      simp only [Chain, payload] at h4
      obtain ⟨g1, g2, g3, g4⟩ := h4
      have hle := Chain.le hH0 g4
      simp only [release]
      by_cases hn : n.size_status.tmod 2 = 0
      · rw [if_pos hn]
        rw [tmod_two_of_nonneg g2] at hn
        split
        · rename_i hfree
          rw [tmod_two_of_nonneg p2] at hfree
          simp only [Chain, payload]
          refine ⟨p1, by unfold toInt toSizeT; omega, by unfold toInt toSizeT; omega, ?_⟩
          exact g4.cast (by unfold toInt toSizeT; omega)
        · simp only [Chain, payload]
          refine ⟨p1, p2, p3, h1, by unfold toInt toSizeT; omega,
            by unfold toInt toSizeT; omega, ?_⟩
          exact g4.cast (by unfold toInt toSizeT; omega)
      · rw [if_neg hn]
        split
        · rename_i hfree
          rw [tmod_two_of_nonneg p2] at hfree
          simp only [Chain, payload]
          refine ⟨p1, by unfold toInt toSizeT; omega, by unfold toInt toSizeT; omega,
            by unfold toInt toSizeT; omega, g2, g3, ?_⟩
          exact g4.cast (by unfold toInt toSizeT; omega)
        · simp only [Chain, payload]
          refine ⟨p1, p2, p3, h1, by unfold toInt; omega, by unfold toInt; omega,
            by unfold toInt; omega, g2, g3, ?_⟩
          exact g4.cast (by unfold toInt; omega)

theorem Mem_Free_loop_chain {H temp_ptr : Int} (hH : 0 < H) (hH4 : H % 4 = 0) :
    ∀ {l : List block_header} {prev_node : Option block_header} {a e : Int},
      e - a < 2147483648 → Chain H a (prev_node.toList ++ l) e →
      Chain H a (Mem_Free_loop H temp_ptr prev_node l).2 e := by
  intro l
  induction l with
  | nil => intro p a e _ h; simpa [Mem_Free_loop] using h
  | cons b l ih =>
    intro p a e hb h
    simp only [Mem_Free_loop]
    split
    · split
      · rename_i hbusy
        exact release_chain hH hH4 hb h hbusy
      · exact h
    · obtain ⟨m, hm1, hm2⟩ := Chain.split h
      have hle := Chain.le (le_of_lt hH) hm1
      have := @ih (some b) m e (by omega) (by simpa using hm2)
      exact Chain.append hm1 this

theorem Mem_Free_chain {H : Int} (hH : 0 < H) (hH4 : H % 4 = 0)
    {l : List block_header} {a e ptr : Int}
    (hb : e - a < 2147483648) (h : Chain H a l e) : Chain H a (Mem_Free H l ptr).2 e := by
  unfold Mem_Free
  split
  · exact h
  · exact Mem_Free_loop_chain hH hH4 hb (by simpa using h)

/-! ## Reachable states -/

theorem roundUp_spec {n P : Int} (hP : 0 < P) (hn : 0 < n) :
    roundUp n P % P = 0 ∧ n ≤ roundUp n P ∧ roundUp n P < n + P ∧ P ≤ roundUp n P := by
  unfold roundUp
  have h0 : 0 ≤ n % P := Int.emod_nonneg n (ne_of_gt hP)
  have h1 : n % P < P := Int.emod_lt_of_pos n hP
  have h2 : P * (n / P) + n % P = n := Int.ediv_add_emod n P
  by_cases hr : n % P = 0
  · have e : (P - n % P) % P = 0 := by rw [hr]; simp
    rw [e]
    have hq : 0 < n / P := by
      rcases lt_or_ge 0 (n / P) with h | h
      · exact h
      · have : P * (n / P) ≤ 0 := Int.mul_nonpos_of_nonneg_of_nonpos (le_of_lt hP) h
        omega
    have : P * 1 ≤ P * (n / P) := Int.mul_le_mul_of_nonneg_left hq (le_of_lt hP)
    refine ⟨by simpa using hr, by omega, by omega, by omega⟩
  · have e : (P - n % P) % P = P - n % P := Int.emod_eq_of_lt (by omega) (by omega)
    rw [e]
    have hq : 0 ≤ n / P := Int.ediv_nonneg (le_of_lt hn) (le_of_lt hP)
    have : 0 ≤ P * (n / P) := Int.mul_nonneg (le_of_lt hP) hq
    have e2 : n + (P - n % P) = P * (n / P + 1) := by rw [mul_add]; omega
    refine ⟨by rw [e2]; exact Int.mul_emod_right _ _, by omega, by omega, by omega⟩

theorem roundUp_mod_four {n P : Int} (hP : 0 < P) (hP4 : P % 4 = 0) (hn : 0 < n) :
    roundUp n P % 4 = 0 := by
  have h := (roundUp_spec hP hn).1
  have hd : (4 : Int) ∣ P := Int.dvd_of_emod_eq_zero hP4
  rw [← Int.emod_emod_of_dvd _ hd, h]; rfl

/-- A successful first `Mem_Init` installs one free block over the rounded
region. -/
theorem Mem_Init_list {H P sz base fd : Int} (hP : 0 < P) (hsz : sz + P ≤ 2147483647)
    (hH : 0 ≤ H) (hHP : H < P)
    (h : (Mem_Init H ⟨P, fd, some base⟩ State.initial sz).1 = 0) :
    0 < sz ∧ (Mem_Init H ⟨P, fd, some base⟩ State.initial sz).2 =
      ⟨[⟨base, roundUp sz P - H⟩], 1⟩ := by
  have hpos : 0 < sz := by
    by_contra hc
    simp [Mem_Init, State.initial, not_lt.1 hc] at h
  have hfd : ¬ (-1 = fd) := by
    intro hc
    subst hc
    simp [Mem_Init, State.initial, not_le.2 hpos] at h
  refine ⟨hpos, ?_⟩
  have h0 : 0 ≤ sz % P := Int.emod_nonneg sz (ne_of_gt hP)
  have h1 : sz % P < P := Int.emod_lt_of_pos sz hP
  have e1 : sz.tmod P = sz % P := Int.tmod_eq_emod (le_of_lt hpos) (le_of_lt hP)
  have e2 : toInt (P - sz % P) = P - sz % P := toInt_of_range (by omega) (by omega)
  have e3 : (P - sz % P).tmod P = (P - sz % P) % P :=
    Int.tmod_eq_emod (by omega) (le_of_lt hP)
  have hs := roundUp_spec hP hpos
  have e4 : toInt (sz + (P - sz % P) % P) = roundUp sz P := by
    unfold roundUp at hs ⊢
    exact toInt_of_range (by omega) (by omega)
  have e5 : toInt (roundUp sz P - H) = roundUp sz P - H :=
    toInt_of_range (by omega) (by omega)
  simp only [Mem_Init, State.initial, ne_eq, not_true_eq_false, if_false, not_le.2 hpos,
    if_neg hfd, e1, e2, e3, e4, e5]

/-- The list of a reachable state is laid out over the region
`[base, base + roundUp sizeOfRegion pagesize)`. -/
theorem Reachable.chain {H P sz base : Int} (hPl : Platform H P)
    (hsz : sz + P ≤ 2147483647) {l : List block_header} (h : Reachable H P sz base l) :
    0 < base ∧ 0 < sz ∧ Chain H base l (base + roundUp sz P) := by
  obtain ⟨hH, hH4, hHP, hP4⟩ := hPl
  have hP : 0 < P := by omega
  induction h with
  | init fd hbase hinit =>
    obtain ⟨hpos, e⟩ := Mem_Init_list hP hsz (le_of_lt hH) hHP hinit
    rw [e]
    have hs := roundUp_spec hP hpos
    have h4 := roundUp_mod_four hP hP4 hpos
    refine ⟨hbase, hpos, ?_⟩
    simp only [Chain, payload]
    refine ⟨trivial, by omega, by omega, by omega⟩
  | alloc l size _ _ hs2 ih =>
    obtain ⟨hbase, hpos, hc⟩ := ih
    have hs := roundUp_spec hP hpos
    exact ⟨hbase, hpos, Mem_Alloc_chain hH hH4 hs2 (by omega) hc⟩
  | free l ptr _ ih =>
    obtain ⟨hbase, hpos, hc⟩ := ih
    have hs := roundUp_spec hP hpos
    exact ⟨hbase, hpos, Mem_Free_chain hH hH4 (by omega) hc⟩

theorem Reachable.sizes_in_range {H P sz base : Int} (hPl : Platform H P)
    (hsz : sz + P ≤ 2147483647) {l : List block_header} (h : Reachable H P sz base l) :
    WellTyped l := by
  obtain ⟨_, hpos, hc⟩ := h.chain hPl hsz
  have hs := roundUp_spec (by unfold Platform at hPl; omega : 0 < P) hpos
  exact hc.wellTyped hPl.1 (by omega)

theorem Reachable.addr_distinct {H P sz base : Int} (hPl : Platform H P)
    (hsz : sz + P ≤ 2147483647) {l : List block_header} (h : Reachable H P sz base l) :
    (l.map block_header.addr).Nodup :=
  (h.chain hPl hsz).2.2.nodup hPl.1

/-! ## The search loops -/

/-- Either no element satisfies `p`, or the list splits at the first one that does. -/
theorem first_split {α : Type} (p : α → Prop) [DecidablePred p] :
    ∀ l : List α, (∀ c ∈ l, ¬ p c) ∨
      ∃ pre b post, l = pre ++ b :: post ∧ (∀ c ∈ pre, ¬ p c) ∧ p b := by
  intro l
  induction l with
  | nil => exact Or.inl (fun c hc => by cases hc)
  | cons x l ih =>
    by_cases hx : p x
    · exact Or.inr ⟨[], x, l, rfl, (fun c hc => by cases hc), hx⟩
    · rcases ih with h | ⟨pre, b, post, e, h1, h2⟩
      · left
        intro c hc
        rcases List.mem_cons.1 hc with rfl | hc
        · exact hx
        · exact h c hc
      · right
        refine ⟨x :: pre, b, post, by rw [e]; rfl, ?_, h2⟩
        intro c hc
        rcases List.mem_cons.1 hc with rfl | hc
        · exact hx
        · exact h1 c hc

theorem Mem_Free_loop_not_found {H temp_ptr : Int} :
    ∀ (l : List block_header) (prev_node : Option block_header),
      (∀ c ∈ l, ¬ c.addr = temp_ptr) →
      Mem_Free_loop H temp_ptr prev_node l = (-1, prev_node.toList ++ l) := by
  intro l
  induction l with
  | nil => intro p _; simp [Mem_Free_loop]
  | cons x l ih =>
    intro p h
    have hx : ¬ x.addr = temp_ptr := h x (List.mem_cons_self _ _)
    simp only [Mem_Free_loop, if_neg hx]
    rw [ih (some x) (fun c hc => h c (List.mem_cons_of_mem _ hc))]
    simp

theorem Mem_Free_loop_found {H temp_ptr : Int} :
    ∀ (pre : List block_header) (prev_node : Option block_header) (b : block_header)
      (post : List block_header),
      (∀ c ∈ pre, ¬ c.addr = temp_ptr) → b.addr = temp_ptr →
      Mem_Free_loop H temp_ptr prev_node (pre ++ b :: post) =
        if b.size_status.tmod 2 = 1 then
          (0, (prev_node.toList ++ pre).dropLast ++
            release H (prev_node.toList ++ pre).getLast? b post)
        else (-1, prev_node.toList ++ (pre ++ b :: post)) := by
  intro pre
  induction pre with
  | nil =>
    intro p b post _ hb
    cases p <;> simp [Mem_Free_loop, hb]
  | cons x pre ih =>
    intro p b post h hb
    have hx : ¬ x.addr = temp_ptr := h x (List.mem_cons_self _ _)
    rw [List.cons_append]
    simp only [Mem_Free_loop, if_neg hx]
    rw [ih (some x) b post (fun c hc => h c (List.mem_cons_of_mem _ hc)) hb]
    split
    · cases p with
      | none => simp
      | some q =>
        simp only [Option.toList, List.singleton_append, List.cons_append, List.nil_append,
          List.dropLast_cons₂, List.getLast?_cons_cons]
    · simp

/-! ## Release: when it succeeds -/

theorem busy_iff_tmod {b : block_header} (h : 0 ≤ b.size_status) :
    b.size_status.tmod 2 = 1 ↔ Busy b := by
  unfold Busy; rw [tmod_two_of_nonneg h]

theorem free_iff_tmod {b : block_header} (h : 0 ≤ b.size_status) :
    b.size_status.tmod 2 = 0 ↔ Free b := by
  unfold Free; rw [tmod_two_of_nonneg h]

theorem eq_of_addr_eq {l : List block_header} (hnd : (l.map block_header.addr).Nodup)
    {b c : block_header} (hb : b ∈ l) (hc : c ∈ l) (h : b.addr = c.addr) : b = c :=
  List.inj_on_of_nodup_map hnd hb hc h

/-- Mem_Free on a list: the three outcomes of the search for `ptr - H`. -/
theorem Mem_Free_cases (H : Int) (l : List block_header) (ptr : Int) :
    (ptr = NULL ∧ Mem_Free H l ptr = (-1, l)) ∨
    (ptr ≠ NULL ∧ (∀ c ∈ l, ¬ c.addr = ptr - H) ∧ Mem_Free H l ptr = (-1, l)) ∨
    (ptr ≠ NULL ∧ ∃ pre b post, l = pre ++ b :: post ∧ (∀ c ∈ pre, ¬ c.addr = ptr - H) ∧
      b.addr = ptr - H ∧
      Mem_Free H l ptr =
        if b.size_status.tmod 2 = 1 then
          (0, pre.dropLast ++ release H pre.getLast? b post)
        else (-1, l)) := by
  by_cases hp : ptr = NULL
  · left; exact ⟨hp, by simp [Mem_Free, hp]⟩
  · right
    rcases first_split (fun c : block_header => c.addr = ptr - H) l with h | ⟨pre, b, post, e, h1, h2⟩
    · left
      refine ⟨hp, h, ?_⟩
      simp only [Mem_Free, if_neg hp]
      rw [Mem_Free_loop_not_found l none h]; simp
    · right
      refine ⟨hp, pre, b, post, e, h1, h2, ?_⟩
      simp only [Mem_Free, if_neg hp]
      rw [e, Mem_Free_loop_found pre none b post h1 h2]
      simp

/-- C5: `Mem_Free(p)` returns 0 exactly when `p` is not `NULL` and `p - H` is the
header address of a block of the list that is busy; in every other case it
returns -1 and the list is as before.  Lists are those of a linked structure in
memory: distinct nodes have distinct addresses, and `size_status` holds a
size. -/
theorem C5_free_succeeds_iff_busy_block (H : Int) (l : List block_header) (ptr : Int)
    (hwt : WellTyped l) (hnd : (l.map block_header.addr).Nodup) :
    ((Mem_Free H l ptr).1 = 0 ↔
      (ptr ≠ NULL ∧ ∃ b ∈ l, b.addr = ptr - H ∧ Busy b)) ∧
    ((Mem_Free H l ptr).1 ≠ 0 → (Mem_Free H l ptr).1 = -1 ∧ (Mem_Free H l ptr).2 = l) := by
  rcases Mem_Free_cases H l ptr with ⟨hp, e⟩ | ⟨hp, hnone, e⟩ | ⟨hp, pre, b, post, hl, hpre, hb, e⟩
  · rw [e]
    refine ⟨⟨fun h => by simp at h, fun h => absurd hp h.1⟩, fun _ => ⟨rfl, rfl⟩⟩
  · rw [e]
    refine ⟨⟨fun h => by simp at h, ?_⟩, fun _ => ⟨rfl, rfl⟩⟩
    rintro ⟨_, c, hc, hca, _⟩
    exact absurd hca (hnone c hc)
  · have hbl : b ∈ l := by rw [hl]; simp
    have hb0 := (hwt b hbl).1
    by_cases hbusy : b.size_status.tmod 2 = 1
    · rw [e, if_pos hbusy]
      refine ⟨⟨fun _ => ⟨hp, b, hbl, hb, (busy_iff_tmod hb0).1 hbusy⟩, fun _ => rfl⟩, ?_⟩
      intro h; exact absurd rfl h
    · rw [e, if_neg hbusy]
      refine ⟨⟨fun h => by simp at h, ?_⟩, fun _ => ⟨rfl, rfl⟩⟩
      rintro ⟨_, c, hc, hca, hcb⟩
      have : c = b := eq_of_addr_eq hnd hc hbl (by rw [hca, hb])
      subst this
      exact absurd ((busy_iff_tmod hb0).2 hcb) hbusy

/-- Witness of C5 on the list left by `Mem_Init(4096)` and `Mem_Alloc(100)`. -/
theorem C5_free_succeeds_iff_busy_block_witness :
    WellTyped [⟨65536, 101⟩, ⟨65652, 3964⟩] ∧
    (([⟨65536, 101⟩, ⟨65652, 3964⟩] : List block_header).map block_header.addr).Nodup ∧
    (((Mem_Free 16 [⟨65536, 101⟩, ⟨65652, 3964⟩] 65552).1 = 0 ↔
      ((65552 : Int) ≠ NULL ∧
        ∃ b ∈ ([⟨65536, 101⟩, ⟨65652, 3964⟩] : List block_header),
          b.addr = 65552 - 16 ∧ Busy b)) ∧
    ((Mem_Free 16 [⟨65536, 101⟩, ⟨65652, 3964⟩] 65552).1 ≠ 0 →
      (Mem_Free 16 [⟨65536, 101⟩, ⟨65652, 3964⟩] 65552).1 = -1 ∧
      (Mem_Free 16 [⟨65536, 101⟩, ⟨65652, 3964⟩] 65552).2 =
        [⟨65536, 101⟩, ⟨65652, 3964⟩])) :=
  ⟨by unfold WellTyped; decide, by decide,
    C5_free_succeeds_iff_busy_block 16 [⟨65536, 101⟩, ⟨65652, 3964⟩] 65552
      (by unfold WellTyped; decide) (by decide)⟩

/-- Under the layout invariant the code of the release branch computes the
coalescing of the specification. -/
theorem release_eq_coalesced {H : Int} (hH : 0 < H) (hH4 : H % 4 = 0)
    {pre : List block_header} {B : block_header} {post : List block_header} {a e : Int}
    (hb : e - a < 2147483648) (h : Chain H a (pre ++ B :: post) e) (hbusy : Busy B) :
    pre.dropLast ++ release H pre.getLast? B post = coalesced H pre B post := by
  have hH0 : 0 ≤ H := le_of_lt hH
  unfold Busy at hbusy
  rcases List.eq_nil_or_concat pre with rfl | ⟨pre', P, rfl⟩ <;>
    simp only [List.concat_eq_append] at * <;>
    obtain ⟨m, hm1, hm2⟩ := Chain.split h <;>
    have hle1 := Chain.le hH0 hm1
  · simp only [Chain, payload] at hm2
    obtain ⟨h1, h2, h3, h4⟩ := hm2
    cases post with
    | nil =>
      simp only [Chain] at h4
      simp [release, coalesced, mergedBlock, mergedRun, absorbedLeft, absorbedRight, payload]
      unfold toInt; omega
    | cons N post' =>
      simp only [Chain, payload] at h4
      obtain ⟨g1, g2, g3, g4⟩ := h4
      have hle := Chain.le hH0 g4
      by_cases hN : Free N
      · have hN' := (free_iff_tmod g2).2 hN
        unfold Free at hN
        simp [release, coalesced, mergedBlock, mergedRun, absorbedLeft, absorbedRight, payload,
          hN', Free, hN]
        unfold toInt toSizeT; omega
      · have hN' : ¬ N.size_status.tmod 2 = 0 := fun hc => hN ((free_iff_tmod g2).1 hc)
        unfold Free at hN
        simp [release, coalesced, mergedBlock, mergedRun, absorbedLeft, absorbedRight, payload,
          hN', Free, hN]
        unfold toInt; omega
  · obtain ⟨m', hp1, hp2⟩ := Chain.split hm1
    have hle2 := Chain.le hH0 hp1
    simp only [Chain, payload] at hp2
    obtain ⟨p1, p2, p3, p4⟩ := hp2
    simp only [Chain, payload] at hm2
    obtain ⟨h1, h2, h3, h4⟩ := hm2
    have hlen : (pre' ++ [P]).length - 1 = pre'.length := by simp
    have htake : List.take (pre'.length + 1) (pre' ++ [P]) = pre' ++ [P] :=
      List.take_of_length_le (by simp)
    cases post with
    | nil =>
      simp only [Chain] at h4
      by_cases hP : Free P
      · have hP' := (free_iff_tmod p2).2 hP
        unfold Free at hP
        simp [release, coalesced, mergedBlock, mergedRun, absorbedLeft, absorbedRight, payload,
          hP', Free, hP, htake]
        unfold toInt toSizeT; omega
      · have hP' : ¬ P.size_status.tmod 2 = 0 := fun hc => hP ((free_iff_tmod p2).1 hc)
        unfold Free at hP
        simp [release, coalesced, mergedBlock, mergedRun, absorbedLeft, absorbedRight, payload,
          hP', Free, hP, htake]
        unfold toInt; omega
    | cons N post' =>
      simp only [Chain, payload] at h4
      obtain ⟨g1, g2, g3, g4⟩ := h4
      have hle := Chain.le hH0 g4
      by_cases hN : Free N
      · have hN' := (free_iff_tmod g2).2 hN
        unfold Free at hN
        by_cases hP : Free P
        · have hP' := (free_iff_tmod p2).2 hP
          unfold Free at hP
          simp [release, coalesced, mergedBlock, mergedRun, absorbedLeft, absorbedRight,
            payload, hP', Free, hP, hN', hN, htake]
          unfold toInt toSizeT; omega
        · have hP' : ¬ P.size_status.tmod 2 = 0 := fun hc => hP ((free_iff_tmod p2).1 hc)
          unfold Free at hP
          simp [release, coalesced, mergedBlock, mergedRun, absorbedLeft, absorbedRight,
            payload, hP', Free, hP, hN', hN, htake]
          unfold toInt toSizeT; omega
      · have hN' : ¬ N.size_status.tmod 2 = 0 := fun hc => hN ((free_iff_tmod g2).1 hc)
        unfold Free at hN
        by_cases hP : Free P
        · have hP' := (free_iff_tmod p2).2 hP
          unfold Free at hP
          simp [release, coalesced, mergedBlock, mergedRun, absorbedLeft, absorbedRight,
            payload, hP', Free, hP, hN', hN, htake]
          unfold toInt toSizeT; omega
        · have hP' : ¬ P.size_status.tmod 2 = 0 := fun hc => hP ((free_iff_tmod p2).1 hc)
          unfold Free at hP
          simp [release, coalesced, mergedBlock, mergedRun, absorbedLeft, absorbedRight,
            payload, hP', Free, hP, hN', hN, htake]
          unfold toInt; omega

theorem payload_sum_even (l : List block_header) : 2 ∣ (l.map payload).sum := by
  induction l with
  | nil => simp
  | cons b l ih =>
    simp only [List.map_cons, List.sum_cons]
    refine Int.dvd_add ?_ ih
    unfold payload
    exact Int.dvd_of_emod_eq_zero (by omega)

theorem mergedBlock_free {H : Int} (hH4 : H % 4 = 0) (pre : List block_header)
    (B : block_header) (post : List block_header) : Free (mergedBlock H pre B post) := by
  unfold Free mergedBlock
  have h1 : (2 : Int) ∣ H := Int.dvd_of_emod_eq_zero (by omega)
  exact Int.emod_eq_zero_of_dvd
    (Int.dvd_add (payload_sum_even _) (Dvd.dvd.mul_right h1 _))

/-- A successful `Mem_Free` on a laid out list: the block at `ptr - H` is busy
and the new list is the coalescing of the specification. -/
theorem Mem_Free_success {H : Int} (hH : 0 < H) (hH4 : H % 4 = 0)
    {l : List block_header} {a e ptr : Int} (hb : e - a < 2147483648)
    (h : Chain H a l e) (hs : (Mem_Free H l ptr).1 = 0) :
    ∃ pre B post, l = pre ++ B :: post ∧ B.addr = ptr - H ∧ Busy B ∧
      (Mem_Free H l ptr).2 = coalesced H pre B post := by
  rcases Mem_Free_cases H l ptr with ⟨_, e1⟩ | ⟨_, _, e1⟩ | ⟨_, pre, B, post, hl, _, hB, e1⟩
  · rw [e1] at hs; simp at hs
  · rw [e1] at hs; simp at hs
  · have hBl : B ∈ l := by rw [hl]; simp
    have hB0 := (Chain.mem_bounds (le_of_lt hH) h B hBl).2.2.1
    by_cases hbusy : B.size_status.tmod 2 = 1
    · have hbusy' := (busy_iff_tmod hB0).1 hbusy
      refine ⟨pre, B, post, hl, hB, hbusy', ?_⟩
      rw [e1, if_pos hbusy]
      exact release_eq_coalesced hH hH4 hb (hl ▸ h) hbusy'
    · rw [e1, if_neg hbusy] at hs; simp at hs

/-- After the release of `B` no busy block is left at the address of `B`. -/
theorem coalesced_free_at {H : Int} (hH : 0 < H) (hH4 : H % 4 = 0)
    {pre : List block_header} {B : block_header} {post : List block_header} {a e : Int}
    (h : Chain H a (pre ++ B :: post) e) :
    ∀ c ∈ coalesced H pre B post, c.addr = B.addr → Free c := by
  intro c hc hca
  have hlt := Chain.addr_lt hH h
  rw [List.pairwise_append] at hlt
  obtain ⟨_, h2, h3⟩ := hlt
  rw [List.pairwise_cons] at h2
  unfold coalesced at hc
  rcases List.mem_append.1 hc with hc | hc
  · have := h3 c (List.mem_of_mem_take hc) B (List.mem_cons_self _ _)
    omega
  · rcases List.mem_cons.1 hc with rfl | hc
    · exact mergedBlock_free hH4 pre B post
    · have := h2.1 c (List.mem_of_mem_drop hc)
      omega

theorem Mem_Free_twice {H : Int} (hH : 0 < H) (hH4 : H % 4 = 0)
    {l : List block_header} {a e ptr : Int} (hb : e - a < 2147483648)
    (h : Chain H a l e) (hs : (Mem_Free H l ptr).1 = 0) :
    Mem_Free H (Mem_Free H l ptr).2 ptr = (-1, (Mem_Free H l ptr).2) := by
  have hc' : Chain H a (Mem_Free H l ptr).2 e := Mem_Free_chain hH hH4 hb h
  obtain ⟨pre, B, post, hl, hB, _, e1⟩ := Mem_Free_success hH hH4 hb h hs
  have hfree := coalesced_free_at hH hH4 (hl ▸ h)
  rw [← e1] at hfree
  generalize (Mem_Free H l ptr).2 = l' at hc' hfree
  rcases Mem_Free_cases H l' ptr with ⟨_, e2⟩ | ⟨_, _, e2⟩ | ⟨_, pre', c, post', hl', _, hc, e2⟩
  · exact e2
  · exact e2
  · have hcl : c ∈ l' := by rw [hl']; simp
    have hc0 := (Chain.mem_bounds (le_of_lt hH) hc' c hcl).2.2.1
    have hcf : Free c := hfree c hcl (by rw [hc, hB])
    have : ¬ c.size_status.tmod 2 = 1 := by
      rw [tmod_two_of_nonneg hc0]; unfold Free at hcf; omega
    rw [e2, if_neg this]

/-! ## Concrete states used as witnesses -/

theorem platform_16_4096 : Platform 16 4096 := by decide

theorem reachable_init :
    Reachable 16 4096 4096 65536 [⟨65536, 4080⟩] :=
  Reachable.init 3 (by decide) (by decide)

theorem reachable_alloc_100 :
    Reachable 16 4096 4096 65536 [⟨65536, 101⟩, ⟨65652, 3964⟩] :=
  Reachable.alloc _ 100 reachable_init (by decide) (by decide)

theorem reachable_alloc_100_200 :
    Reachable 16 4096 4096 65536 [⟨65536, 101⟩, ⟨65652, 201⟩, ⟨65868, 3748⟩] :=
  Reachable.alloc _ 200 reachable_alloc_100 (by decide) (by decide)

theorem reachable_free_first :
    Reachable 16 4096 4096 65536 [⟨65536, 100⟩, ⟨65652, 201⟩, ⟨65868, 3748⟩] :=
  Reachable.free _ 65552 reachable_alloc_100_200

/-- C9: a successful `Mem_Free` in a reachable state releases a busy block `B`
of the list, and the new list is the old one in which the run made of the
predecessor of `B` (when free), `B`, and the successor of `B` (when free) is
replaced by one free block at the lowest address of the run, whose payload is
the sum of the payloads of the run plus `H` for each absorbed block; the blocks
outside the run are kept. -/
theorem C9_release_coalesces_neighbours (H P sz base : Int) (hPl : Platform H P)
    (hsz : sz + P ≤ 2147483647) (l : List block_header) (hR : Reachable H P sz base l)
    (ptr : Int) (hs : (Mem_Free H l ptr).1 = 0) :
    ∃ pre B post, l = pre ++ B :: post ∧ B.addr = ptr - H ∧ Busy B ∧
      (Mem_Free H l ptr).2 = coalesced H pre B post ∧
      Free (mergedBlock H pre B post) := by
  obtain ⟨_, hpos, hc⟩ := hR.chain hPl hsz
  have hs' := roundUp_spec (by unfold Platform at hPl; omega : 0 < P) hpos
  obtain ⟨pre, B, post, h1, h2, h3, h4⟩ :=
    Mem_Free_success hPl.1 hPl.2.1 (by omega) hc hs
  exact ⟨pre, B, post, h1, h2, h3, h4, mergedBlock_free hPl.2.1 pre B post⟩

/-- Witness of C9: after `Mem_Init(4096)`, `Mem_Alloc(100)`, `Mem_Alloc(200)`,
the release of the second block merges it with the free remainder. -/
theorem C9_release_coalesces_neighbours_witness :
    Platform 16 4096 ∧ (4096 : Int) + 4096 ≤ 2147483647 ∧
    Reachable 16 4096 4096 65536 [⟨65536, 101⟩, ⟨65652, 201⟩, ⟨65868, 3748⟩] ∧
    (Mem_Free 16 [⟨65536, 101⟩, ⟨65652, 201⟩, ⟨65868, 3748⟩] 65668).1 = 0 ∧
    ∃ pre B post, [⟨65536, 101⟩, ⟨65652, 201⟩, ⟨65868, 3748⟩] = pre ++ B :: post ∧
      B.addr = 65668 - 16 ∧ Busy B ∧
      (Mem_Free 16 [⟨65536, 101⟩, ⟨65652, 201⟩, ⟨65868, 3748⟩] 65668).2 =
        coalesced 16 pre B post ∧
      Free (mergedBlock 16 pre B post) :=
  ⟨by decide, by decide, reachable_alloc_100_200, by decide,
    C9_release_coalesces_neighbours 16 4096 4096 65536 (by decide) (by decide)
      [⟨65536, 101⟩, ⟨65652, 201⟩, ⟨65868, 3748⟩] reachable_alloc_100_200 65668 (by decide)⟩

/-- C10: in a reachable state, when `Mem_Free(p)` returns 0, a second
`Mem_Free(p)` right after it returns -1 and leaves the list unchanged. -/
theorem C10_double_release_fails (H P sz base : Int) (hPl : Platform H P)
    (hsz : sz + P ≤ 2147483647) (l : List block_header) (hR : Reachable H P sz base l)
    (ptr : Int) (hs : (Mem_Free H l ptr).1 = 0) :
    (Mem_Free H (Mem_Free H l ptr).2 ptr).1 = -1 ∧
    (Mem_Free H (Mem_Free H l ptr).2 ptr).2 = (Mem_Free H l ptr).2 := by
  obtain ⟨_, hpos, hc⟩ := hR.chain hPl hsz
  have hs' := roundUp_spec (by unfold Platform at hPl; omega : 0 < P) hpos
  rw [Mem_Free_twice hPl.1 hPl.2.1 (by omega) hc hs]
  exact ⟨rfl, rfl⟩

/-- Witness of C10: after `Mem_Init(4096)`, `Mem_Alloc(100)`, `Mem_Alloc(200)` and
the release of the first block, the second block is released twice; its first
release merges it into its free predecessor, which unlinks it. -/
theorem C10_double_release_fails_witness :
    Platform 16 4096 ∧ (4096 : Int) + 4096 ≤ 2147483647 ∧
    Reachable 16 4096 4096 65536 [⟨65536, 100⟩, ⟨65652, 201⟩, ⟨65868, 3748⟩] ∧
    (Mem_Free 16 [⟨65536, 100⟩, ⟨65652, 201⟩, ⟨65868, 3748⟩] 65668).1 = 0 ∧
    (Mem_Free 16 (Mem_Free 16 [⟨65536, 100⟩, ⟨65652, 201⟩, ⟨65868, 3748⟩] 65668).2 65668).1
      = -1 ∧
    (Mem_Free 16 (Mem_Free 16 [⟨65536, 100⟩, ⟨65652, 201⟩, ⟨65868, 3748⟩] 65668).2 65668).2
      = (Mem_Free 16 [⟨65536, 100⟩, ⟨65652, 201⟩, ⟨65868, 3748⟩] 65668).2 :=
  ⟨by decide, by decide, reachable_free_first, by decide,
    C10_double_release_fails 16 4096 4096 65536 (by decide) (by decide)
      [⟨65536, 100⟩, ⟨65652, 201⟩, ⟨65868, 3748⟩] reachable_free_first 65668 (by decide)⟩

/-! ## Allocation: the first fit -/

/-- The test of line 127 on a block of a well typed list, for a request that did
not overflow. -/
theorem alloc_test_iff {H r : Int} {c : block_header} (hH : 0 ≤ H) (hH' : H < 2147483648)
    (hr : 0 < r) (hr' : r < 2147483648)
    (hc : 0 ≤ c.size_status ∧ c.size_status < 2147483648) :
    (c.size_status.tmod 2 = 0 ∧ toSizeT (r + H) < toSizeT c.size_status) ↔ Fits H r c := by
  unfold Fits Free
  rw [tmod_two_of_nonneg hc.1, toSizeT_of_range (by omega) (by omega),
    toSizeT_of_range hc.1 (by omega)]

/-- The test of line 127 fails on every block when the rounding overflowed. -/
theorem alloc_test_overflow {H : Int} {c : block_header} (hH : 0 ≤ H) (hH' : H < 2147483648)
    (hc : 0 ≤ c.size_status ∧ c.size_status < 2147483648) :
    ¬ (c.size_status.tmod 2 = 0 ∧ toSizeT (-2147483648 + H) < toSizeT c.size_status) := by
  rw [toSizeT_of_neg (by omega) (by omega), toSizeT_of_range hc.1 (by omega)]
  omega

theorem Mem_Alloc_loop_none {H s : Int} :
    ∀ (l : List block_header),
      (∀ c ∈ l, ¬ (c.size_status.tmod 2 = 0 ∧ toSizeT (s + H) < toSizeT c.size_status)) →
      Mem_Alloc_loop H s l = (NULL, l) := by
  intro l
  induction l with
  | nil => intro _; rfl
  | cons x l ih =>
    intro h
    simp only [Mem_Alloc_loop, if_neg (h x (List.mem_cons_self _ _))]
    rw [ih (fun c hc => h c (List.mem_cons_of_mem _ hc))]

theorem Mem_Alloc_loop_first {H r : Int} (hH : 0 ≤ H) (hH' : H < 2147483648)
    (hr : 0 < r) (hr' : r < 2147483647) :
    ∀ (pre : List block_header) (b : block_header) (post : List block_header),
      WellTyped (pre ++ b :: post) → (∀ c ∈ pre, ¬ Fits H r c) → Fits H r b →
      Mem_Alloc_loop H r (pre ++ b :: post) =
        (b.addr + H * H,
          pre ++ ⟨b.addr, r + 1⟩ :: ⟨b.addr + H + r, b.size_status - H - r⟩ :: post) := by
  intro pre
  induction pre with
  | nil =>
    intro b post hwt _ hb
    have hb0 := hwt b (by simp)
    have hcond := (alloc_test_iff hH hH' hr (by omega) hb0).2 hb
    unfold Fits at hb
    have e1 : toInt (r + 1) = r + 1 := toInt_of_range (by omega) (by omega)
    have e2 : toInt (b.size_status - r) = b.size_status - r :=
      toInt_of_range (by omega) (by omega)
    have e3 : toSizeT (b.size_status - r - H) = b.size_status - r - H :=
      toSizeT_of_range (by omega) (by omega)
    have e4 : toSizeT (b.size_status - H - r) = b.size_status - H - r :=
      toSizeT_of_range (by omega) (by omega)
    have e5 : toInt (b.size_status - H - r) = b.size_status - H - r :=
      toInt_of_range (by omega) (by omega)
    simp only [List.nil_append, Mem_Alloc_loop, if_pos hcond, e2, e3]
    rw [if_pos (by omega), e1, e4, e5]
  | cons x pre ih =>
    intro b post hwt hpre hb
    have hx0 := hwt x (by simp)
    have hx : ¬ (x.size_status.tmod 2 = 0 ∧ toSizeT (r + H) < toSizeT x.size_status) :=
      fun hc => hpre x (List.mem_cons_self _ _) ((alloc_test_iff hH hH' hr (by omega) hx0).1 hc)
    rw [List.cons_append]
    simp only [Mem_Alloc_loop, if_neg hx]
    rw [ih b post (fun c hc => hwt c (by simp at hc ⊢; tauto))
      (fun c hc => hpre c (List.mem_cons_of_mem _ hc)) hb]
    rfl

/-- C6: first-fit split.  In a reachable state, for a request `size >= 1` whose
rounding `r` (the least multiple of 4 that is at least `size`) fits an `int`,
when `b` is the lowest-addressed free block whose capacity strictly exceeds
`r + H`, `Mem_Alloc(size)` succeeds and the new list is the old one with `b`
replaced by a busy block at the address of `b` with payload `r`, followed by a
free block at `b + H + r` of size `b.size_status - H - r` that is linked to the
old successor of `b`; every other block is unchanged. -/
theorem C6_first_fit_split (H P sz base : Int) (hPl : Platform H P)
    (hsz : sz + P ≤ 2147483647) (l : List block_header) (hR : Reachable H P sz base l)
    (size r : Int) (h1 : 1 ≤ size) (hr4 : r % 4 = 0) (hle : size ≤ r) (hlt : r < size + 4)
    (hov : r < 2147483648)
    (b : block_header) (hb : b ∈ l) (hfree : Free b) (hfit : r + H < b.size_status)
    (hmin : ∀ c ∈ l, Free c → r + H < c.size_status → b.addr ≤ c.addr) :
    ∃ pre post, l = pre ++ b :: post ∧
      (Mem_Alloc H l size).1 ≠ NULL ∧
      (Mem_Alloc H l size).2 =
        pre ++ ⟨b.addr, r + 1⟩ :: ⟨b.addr + H + r, b.size_status - H - r⟩ :: post ∧
      Busy ⟨b.addr, r + 1⟩ ∧ payload ⟨b.addr, r + 1⟩ = r ∧
      Free ⟨b.addr + H + r, b.size_status - H - r⟩ := by
  obtain ⟨hH, hH4, hHP, hP4⟩ := hPl
  obtain ⟨hbase, hpos, hc⟩ := hR.chain ⟨hH, hH4, hHP, hP4⟩ hsz
  have hwt := hR.sizes_in_range ⟨hH, hH4, hHP, hP4⟩ hsz
  have hlt' := Chain.addr_lt hH hc
  have hbfit : Fits H r b := ⟨hfree, hfit⟩
  rcases first_split (Fits H r) l with hnone | ⟨pre, b', post, hl, hpre, hb'⟩
  · exact absurd hbfit (hnone b hb)
  · have hbb : b' = b := by
      have hb'l : b' ∈ l := by rw [hl]; simp
      have hle' := hmin b' hb'l hb'.1 hb'.2
      rw [hl] at hb hlt'
      rw [List.pairwise_append] at hlt'
      obtain ⟨_, h2, h3⟩ := hlt'
      rw [List.pairwise_cons] at h2
      rcases List.mem_append.1 hb with hin | hin
      · exact absurd hbfit (hpre b hin)
      · rcases List.mem_cons.1 hin with heq | hin
        · exact heq.symm
        · have := h2.1 b hin
          omega
    subst hbb
    have hba := (Chain.mem_bounds (le_of_lt hH) hc b' hb).1
    have hb0 := (hwt b' hb).1
    refine ⟨pre, post, hl, ?_, ?_, ?_, ?_, ?_⟩
    · unfold Mem_Alloc
      rw [if_neg (by omega), roundSize_unique h1 (by omega) hr4 hle hlt, hl,
        Mem_Alloc_loop_first (le_of_lt hH) (by omega) (by omega) (by omega) pre b' post
          (hl ▸ hwt) hpre hb']
      have : 0 ≤ H * H := Int.mul_nonneg (le_of_lt hH) (le_of_lt hH)
      unfold NULL
      show b'.addr + H * H ≠ 0
      omega
    · unfold Mem_Alloc
      rw [if_neg (by omega), roundSize_unique h1 (by omega) hr4 hle hlt, hl,
        Mem_Alloc_loop_first (le_of_lt hH) (by omega) (by omega) (by omega) pre b' post
          (hl ▸ hwt) hpre hb']
    · unfold Busy; show (r + 1) % 2 = 1; omega
    · unfold payload; show r + 1 - (r + 1) % 2 = r; omega
    · unfold Free at hfree ⊢; show (b'.size_status - H - r) % 2 = 0; omega

/-- Witness of C6: `Mem_Alloc(100)` on the arena of `Mem_Init(4096)` leaves a
free remainder of `4096 - 16 - 100 - 16` bytes. -/
theorem C6_first_fit_split_witness :
    Platform 16 4096 ∧ (4096 : Int) + 4096 ≤ 2147483647 ∧
    Reachable 16 4096 4096 65536 [⟨65536, 4080⟩] ∧
    (Mem_Alloc 16 [⟨65536, 4080⟩] 100).2 = [⟨65536, 101⟩, ⟨65652, 4096 - 16 - 100 - 16⟩] ∧
    ∃ pre post, [(⟨65536, 4080⟩ : block_header)] = pre ++ ⟨65536, 4080⟩ :: post ∧
      (Mem_Alloc 16 [⟨65536, 4080⟩] 100).1 ≠ NULL ∧
      (Mem_Alloc 16 [⟨65536, 4080⟩] 100).2 =
        pre ++ ⟨65536, 100 + 1⟩ :: ⟨65536 + 16 + 100, 4080 - 16 - 100⟩ :: post ∧
      Busy ⟨65536, 100 + 1⟩ ∧ payload ⟨65536, 100 + 1⟩ = 100 ∧
      Free ⟨65536 + 16 + 100, 4080 - 16 - 100⟩ :=
  ⟨by decide, by decide, reachable_init, by decide,
    C6_first_fit_split 16 4096 4096 65536 (by decide) (by decide) [⟨65536, 4080⟩]
      reachable_init 100 100 (by decide) (by decide) (by decide) (by decide) (by decide)
      ⟨65536, 4080⟩ (by decide) (by decide) (by decide) (by decide)⟩

/-- C8: `Mem_Alloc(size)` returns `NULL` and leaves the list unchanged when
`size < 1`, and when every free block has a payload capacity smaller than the
rounded request `r` (the least multiple of 4 that is at least `size`), whatever
the sum of the free capacities is. -/
theorem C8_alloc_fails_without_room (H : Int) (hH : 0 ≤ H) (hH' : H < 2147483648)
    (l : List block_header) (hwt : WellTyped l) (size : Int) (hs : size < 2147483648)
    (h : size < 1 ∨
      ∃ r, r % 4 = 0 ∧ size ≤ r ∧ r < size + 4 ∧ ∀ b ∈ l, Free b → b.size_status < r) :
    (Mem_Alloc H l size).1 = NULL ∧ (Mem_Alloc H l size).2 = l := by
  by_cases h1 : size < 1
  · simp [Mem_Alloc, h1]
  · rcases h with h | ⟨r, hr4, hle, hlt, hsmall⟩
    · exact absurd h h1
    · have e : Mem_Alloc H l size = (NULL, l) := by
        unfold Mem_Alloc
        rw [if_neg h1]
        apply Mem_Alloc_loop_none
        intro c hc
        have hc0 := hwt c hc
        by_cases hov : size ≤ 2147483644
        · rw [roundSize_unique (by omega) hov hr4 hle hlt]
          intro hcond
          have hfit := (alloc_test_iff hH hH' (by omega) (by omega) hc0).1 hcond
          have h2 := hsmall c hc hfit.1
          have h3 : r + H < c.size_status := hfit.2
          omega
        · rw [roundSize_overflow (by omega) hs]
          exact alloc_test_overflow hH hH' hc0
      rw [e]; exact ⟨rfl, rfl⟩

theorem reachable_fragmented :
    Reachable 16 4096 4096 65536 [⟨65536, 100⟩, ⟨65652, 101⟩, ⟨65768, 3848⟩] :=
  Reachable.free _ 65552
    (Reachable.alloc _ 100 reachable_alloc_100 (by decide) (by decide))

/-- Witness of C8: `Mem_Alloc(0)` fails, and on the list left by `Mem_Init(4096)`,
`Mem_Alloc(100)`, `Mem_Alloc(100)`, `Mem_Free` of the first block, a request of
3900 bytes fails although the free capacities 100 and 3848 add up to 3948. -/
theorem C8_alloc_fails_without_room_witness :
    WellTyped [⟨65536, 100⟩, ⟨65652, 101⟩, ⟨65768, 3848⟩] ∧
    Reachable 16 4096 4096 65536 [⟨65536, 100⟩, ⟨65652, 101⟩, ⟨65768, 3848⟩] ∧
    (3900 : Int) ≤ 100 + 3848 ∧
    ((Mem_Alloc 16 [⟨65536, 100⟩, ⟨65652, 101⟩, ⟨65768, 3848⟩] 3900).1 = NULL ∧
      (Mem_Alloc 16 [⟨65536, 100⟩, ⟨65652, 101⟩, ⟨65768, 3848⟩] 3900).2 =
        [⟨65536, 100⟩, ⟨65652, 101⟩, ⟨65768, 3848⟩]) ∧
    ((Mem_Alloc 16 [⟨65536, 100⟩, ⟨65652, 101⟩, ⟨65768, 3848⟩] 0).1 = NULL ∧
      (Mem_Alloc 16 [⟨65536, 100⟩, ⟨65652, 101⟩, ⟨65768, 3848⟩] 0).2 =
        [⟨65536, 100⟩, ⟨65652, 101⟩, ⟨65768, 3848⟩]) :=
  ⟨by unfold WellTyped; decide, reachable_fragmented, by decide,
    C8_alloc_fails_without_room 16 (by decide) (by decide)
      [⟨65536, 100⟩, ⟨65652, 101⟩, ⟨65768, 3848⟩] (by unfold WellTyped; decide) 3900
      (by decide) (Or.inr ⟨3900, by decide, by decide, by decide, by decide⟩),
    C8_alloc_fails_without_room 16 (by decide) (by decide)
      [⟨65536, 100⟩, ⟨65652, 101⟩, ⟨65768, 3848⟩] (by unfold WellTyped; decide) 0
      (by decide) (Or.inl (by decide))⟩

/-! ## Where the code departs from its contract -/

/-- C1 (the code departs from it): after `Mem_Init(4096)` with a 16 byte header and
the region at 65536, `Mem_Alloc(100)` selects the block whose header is at 65536
and marks it busy, but returns `65536 + 16 * 16`, not the payload address
`65536 + 16`. -/
theorem C1_alloc_returns_header_plus_H_times_H :
    Mem_Init 16 ⟨4096, 3, some 65536⟩ State.initial 4096 = (0, ⟨[⟨65536, 4080⟩], 1⟩) ∧
    (Mem_Alloc 16 [⟨65536, 4080⟩] 100).2 = [⟨65536, 101⟩, ⟨65652, 3964⟩] ∧
    (Mem_Alloc 16 [⟨65536, 4080⟩] 100).1 = 65536 + 16 * 16 ∧
    (Mem_Alloc 16 [⟨65536, 4080⟩] 100).1 ≠ 65536 + 16 := by
  decide

/-- C2 (the code departs from it): after `Mem_Init(4096)`, `p = Mem_Alloc(100)` is
`65792`; `Mem_Free(p)` looks for a header at `65776`, finds none, returns -1, and
the list is not the one before the allocation. -/
theorem C2_free_of_returned_pointer_fails :
    Mem_Init 16 ⟨4096, 3, some 65536⟩ State.initial 4096 = (0, ⟨[⟨65536, 4080⟩], 1⟩) ∧
    Mem_Alloc 16 [⟨65536, 4080⟩] 100 = (65792, [⟨65536, 101⟩, ⟨65652, 3964⟩]) ∧
    Mem_Free 16 [⟨65536, 101⟩, ⟨65652, 3964⟩] 65792 =
      (-1, [⟨65536, 101⟩, ⟨65652, 3964⟩]) ∧
    ([⟨65536, 101⟩, ⟨65652, 3964⟩] : List block_header) ≠ [⟨65536, 4080⟩] := by
  decide

/-- C3 (the code departs from it): after `Mem_Init(4096)`, `Mem_Alloc(100)` and
`Mem_Alloc(200)` return `65792` and `65908`; both `Mem_Free` calls on them return
-1 and the list keeps its three blocks. -/
theorem C3_release_of_all_returned_pointers_fails :
    Mem_Init 16 ⟨4096, 3, some 65536⟩ State.initial 4096 = (0, ⟨[⟨65536, 4080⟩], 1⟩) ∧
    Mem_Alloc 16 [⟨65536, 4080⟩] 100 = (65792, [⟨65536, 101⟩, ⟨65652, 3964⟩]) ∧
    Mem_Alloc 16 [⟨65536, 101⟩, ⟨65652, 3964⟩] 200 =
      (65908, [⟨65536, 101⟩, ⟨65652, 201⟩, ⟨65868, 3748⟩]) ∧
    Mem_Free 16 [⟨65536, 101⟩, ⟨65652, 201⟩, ⟨65868, 3748⟩] 65792 =
      (-1, [⟨65536, 101⟩, ⟨65652, 201⟩, ⟨65868, 3748⟩]) ∧
    Mem_Free 16 [⟨65536, 101⟩, ⟨65652, 201⟩, ⟨65868, 3748⟩] 65908 =
      (-1, [⟨65536, 101⟩, ⟨65652, 201⟩, ⟨65868, 3748⟩]) := by
  decide

/-- C4 (the code departs from it): after `Mem_Init(4096)` the only pointer that
`Mem_Alloc` has returned is `65792`; `Mem_Free(65552)`, on a pointer that was
never returned, returns 0 and changes the list. -/
theorem C4_free_accepts_pointer_never_returned :
    Mem_Init 16 ⟨4096, 3, some 65536⟩ State.initial 4096 = (0, ⟨[⟨65536, 4080⟩], 1⟩) ∧
    Mem_Alloc 16 [⟨65536, 4080⟩] 100 = (65792, [⟨65536, 101⟩, ⟨65652, 3964⟩]) ∧
    (65552 : Int) ≠ 65792 ∧
    Mem_Free 16 [⟨65536, 101⟩, ⟨65652, 3964⟩] 65552 = (0, [⟨65536, 4080⟩]) ∧
    ([⟨65536, 4080⟩] : List block_header) ≠ [⟨65536, 101⟩, ⟨65652, 3964⟩] := by
  decide

/-- C7 (the code departs from it): after `Mem_Init(4096)` the only free block has
capacity 4080; for `Mem_Alloc(4072)` the rounded request is 4072 and
`4072 <= 4080 <= 4072 + 16`, yet the call returns `NULL` and allocates nothing. -/
theorem C7_exact_fit_is_refused :
    Mem_Init 16 ⟨4096, 3, some 65536⟩ State.initial 4096 = (0, ⟨[⟨65536, 4080⟩], 1⟩) ∧
    roundSize 4072 = 4072 ∧ (4072 : Int) ≤ 4080 ∧ (4080 : Int) ≤ 4072 + 16 ∧
    Mem_Alloc 16 [⟨65536, 4080⟩] 4072 = (NULL, [⟨65536, 4080⟩]) := by
  decide

/-! ## Allocation: the two outcomes -/

/-- On a well typed list `Mem_Alloc` either fails and leaves the list as it is,
or splits the first block that fits the rounded request. -/
theorem Mem_Alloc_cases {H : Int} (hH : 0 ≤ H) (hH' : H < 2147483648)
    {l : List block_header} (hwt : WellTyped l) {size : Int} (hs : size < 2147483648) :
    (Mem_Alloc H l size = (NULL, l) ∧
      (size < 1 ∨ 2147483644 < size ∨ ∀ c ∈ l, ¬ Fits H (roundSize size) c)) ∨
    (1 ≤ size ∧ size ≤ 2147483644 ∧
      ∃ pre b post, l = pre ++ b :: post ∧ (∀ c ∈ pre, ¬ Fits H (roundSize size) c) ∧
        Fits H (roundSize size) b ∧
        Mem_Alloc H l size =
          (b.addr + H * H,
            pre ++ ⟨b.addr, roundSize size + 1⟩ ::
              ⟨b.addr + H + roundSize size, b.size_status - H - roundSize size⟩ :: post)) := by
  by_cases h1 : size < 1
  · left; exact ⟨by simp [Mem_Alloc, h1], Or.inl h1⟩
  · by_cases hov : size ≤ 2147483644
    · have hr := roundSize_of_range (by omega : 1 ≤ size) hov
      have hr0 : 0 < roundSize size := by rw [hr]; omega
      have hr1 : roundSize size < 2147483647 := by rw [hr]; omega
      rcases first_split (Fits H (roundSize size)) l with hnone | ⟨pre, b, post, hl, hpre, hb⟩
      · left
        refine ⟨?_, Or.inr (Or.inr hnone)⟩
        unfold Mem_Alloc
        rw [if_neg h1]
        apply Mem_Alloc_loop_none
        intro c hc hcond
        exact hnone c hc ((alloc_test_iff hH hH' hr0 (by omega) (hwt c hc)).1 hcond)
      · right
        refine ⟨by omega, hov, pre, b, post, hl, hpre, hb, ?_⟩
        unfold Mem_Alloc
        rw [if_neg h1, hl]
        exact Mem_Alloc_loop_first hH hH' hr0 hr1 pre b post (hl ▸ hwt) hpre hb
    · left
      refine ⟨?_, Or.inr (Or.inl (by omega))⟩
      unfold Mem_Alloc
      rw [if_neg h1, roundSize_overflow (by omega) hs]
      apply Mem_Alloc_loop_none
      intro c hc
      exact alloc_test_overflow hH hH' (hwt c hc)

/-! ## The coalescing invariant -/

theorem noAdjFree_replace {pre : List block_header} {b b' : block_header}
    {post post' : List block_header} (h : NoAdjFree (pre ++ b :: post))
    (hb : Free b' → Free b) (hpost : NoAdjFree (b' :: post')) :
    NoAdjFree (pre ++ b' :: post') := by
  unfold NoAdjFree at *
  rw [List.chain'_split] at h ⊢
  refine ⟨?_, hpost⟩
  have h1 := h.1
  rw [List.chain'_append] at h1 ⊢
  refine ⟨h1.1, List.chain'_singleton _, ?_⟩
  intro x hx y hy
  simp only [List.head?_cons, Option.mem_def, Option.some.injEq] at hy
  subst hy
  have := h1.2.2 x hx b (by simp)
  exact fun hc => this ⟨hc.1, hb hc.2⟩

theorem Mem_Alloc_noAdjFree {H : Int} (hH : 0 ≤ H) (hH' : H < 2147483648)
    {l : List block_header} (hwt : WellTyped l) {size : Int} (hs : size < 2147483648)
    (h : NoAdjFree l) : NoAdjFree (Mem_Alloc H l size).2 := by
  rcases Mem_Alloc_cases hH hH' hwt hs with ⟨e, _⟩ | ⟨h1, h2, pre, b, post, hl, _, hb, e⟩
  · rw [e]; exact h
  · rw [e]
    have hr := roundSize_of_range h1 h2
    subst hl
    have hbusy : ¬ Free ⟨b.addr, roundSize size + 1⟩ := by
      unfold Free; show ¬ (roundSize size + 1) % 2 = 0; rw [hr]; omega
    refine noAdjFree_replace h (fun hc => absurd hc hbusy) ?_
    have hpost : NoAdjFree (b :: post) := by
      unfold NoAdjFree at h ⊢
      exact h.right_of_append
    unfold NoAdjFree at hpost ⊢
    refine List.Chain'.cons (fun hc => hbusy hc.1) ?_
    exact List.Chain'.imp_head (fun {z} hz hc => hz ⟨hb.1, hc.2⟩) hpost

theorem keptLeft_noAdjFree {pre : List block_header} (h : NoAdjFree pre) :
    NoAdjFree (pre.take (pre.length - (absorbedLeft pre).length)) ∧
    ∀ x ∈ (pre.take (pre.length - (absorbedLeft pre).length)).getLast?, ¬ Free x := by
  unfold NoAdjFree at *
  rcases List.eq_nil_or_concat pre with rfl | ⟨pre', P, rfl⟩
  · simp [absorbedLeft]
  · simp only [List.concat_eq_append] at *
    by_cases hP : Free P
    · have e : List.take ((pre' ++ [P]).length - (absorbedLeft (pre' ++ [P])).length)
          (pre' ++ [P]) = pre' := by
        simp [absorbedLeft, hP]
      rw [e]
      refine ⟨h.left_of_append, ?_⟩
      intro x hx hxf
      rw [List.chain'_append] at h
      exact h.2.2 x hx P (by simp) ⟨hxf, hP⟩
    · have e : List.take ((pre' ++ [P]).length - (absorbedLeft (pre' ++ [P])).length)
          (pre' ++ [P]) = pre' ++ [P] := by
        simp [absorbedLeft, hP]
      rw [e]
      refine ⟨h, ?_⟩
      intro x hx
      simp at hx
      subst hx
      exact hP

theorem keptRight_noAdjFree {post : List block_header} (h : NoAdjFree post) :
    NoAdjFree (post.drop (absorbedRight post).length) ∧
    ∀ y ∈ (post.drop (absorbedRight post).length).head?, ¬ Free y := by
  unfold NoAdjFree at *
  cases post with
  | nil => simp [absorbedRight]
  | cons N post' =>
    by_cases hN : Free N
    · have e : List.drop (absorbedRight (N :: post')).length (N :: post') = post' := by
        simp [absorbedRight, hN]
      rw [e]
      refine ⟨h.tail, ?_⟩
      intro y hy hyf
      exact h.rel_head? hy ⟨hN, hyf⟩
    · have e : List.drop (absorbedRight (N :: post')).length (N :: post') = N :: post' := by
        simp [absorbedRight, hN]
      rw [e]
      refine ⟨h, ?_⟩
      intro y hy
      simp at hy
      subst hy
      exact hN

theorem coalesced_noAdjFree (H : Int) {pre : List block_header} {B : block_header}
    {post : List block_header} (h : NoAdjFree (pre ++ B :: post)) :
    NoAdjFree (coalesced H pre B post) := by
  have hl := keptLeft_noAdjFree (show NoAdjFree pre from List.Chain'.left_of_append h)
  have hr := keptRight_noAdjFree
    (show NoAdjFree post from (List.Chain'.right_of_append h).tail)
  unfold NoAdjFree at *
  unfold coalesced
  rw [List.chain'_append]
  refine ⟨hl.1, ?_, ?_⟩
  · rw [List.chain'_cons']
    exact ⟨fun y hy hc => hr.2 y hy hc.2, hr.1⟩
  · intro x hx y hy hc
    exact hl.2 x hx hc.1

theorem Mem_Free_noAdjFree {H : Int} (hH : 0 < H) (hH4 : H % 4 = 0)
    {l : List block_header} {a e ptr : Int} (hb : e - a < 2147483648)
    (hc : Chain H a l e) (h : NoAdjFree l) : NoAdjFree (Mem_Free H l ptr).2 := by
  by_cases hs : (Mem_Free H l ptr).1 = 0
  · obtain ⟨pre, B, post, hl, _, _, e1⟩ := Mem_Free_success hH hH4 hb hc hs
    rw [e1]
    exact coalesced_noAdjFree H (hl ▸ h)
  · rcases Mem_Free_cases H l ptr with ⟨_, e1⟩ | ⟨_, _, e1⟩ | ⟨_, pre, B, post, _, _, _, e1⟩
    · rw [e1]; exact h
    · rw [e1]; exact h
    · by_cases hbusy : B.size_status.tmod 2 = 1
      · rw [e1, if_pos hbusy] at hs; exact absurd rfl hs
      · rw [e1, if_neg hbusy]; exact h

theorem Reachable.noAdjFree {H P sz base : Int} (hPl : Platform H P)
    (hsz : sz + P ≤ 2147483647) {l : List block_header} (h : Reachable H P sz base l) :
    NoAdjFree l := by
  have hP : 0 < P := by unfold Platform at hPl; omega
  induction h with
  | init fd hbase hinit =>
    obtain ⟨_, e⟩ := Mem_Init_list hP hsz (le_of_lt hPl.1) hPl.2.2.1 hinit
    rw [e]
    exact List.chain'_singleton _
  | alloc l size hR _ hs2 ih =>
    obtain ⟨_, hpos, _⟩ := hR.chain hPl hsz
    exact Mem_Alloc_noAdjFree (le_of_lt hPl.1) (by unfold Platform at hPl; omega)
      (hR.sizes_in_range hPl hsz) hs2 ih
  | free l ptr hR ih =>
    obtain ⟨_, hpos, hc⟩ := hR.chain hPl hsz
    have hs := roundUp_spec hP hpos
    exact Mem_Free_noAdjFree hPl.1 hPl.2.1 (by omega) hc ih

/-- C11: in every state reachable from a successful `Mem_Init` by calls of
`Mem_Alloc` and `Mem_Free` with arbitrary arguments, no free block is
immediately followed in the list by another free block. -/
theorem C11_no_adjacent_free_blocks (H P sz base : Int) (hPl : Platform H P)
    (hsz : sz + P ≤ 2147483647) (l : List block_header) (hR : Reachable H P sz base l) :
    ∀ pre x y post, l = pre ++ x :: y :: post → ¬ (Free x ∧ Free y) := by
  intro pre x y post hl
  have h := hR.noAdjFree hPl hsz
  unfold NoAdjFree at h
  rw [hl] at h
  exact (List.Chain'.right_of_append h).rel_head

/-- Witness of C11: after `Mem_Init(4096)`, two `Mem_Alloc(100)` and the release
of the first block, the list is free, busy, free. -/
theorem C11_no_adjacent_free_blocks_witness :
    Platform 16 4096 ∧ (4096 : Int) + 4096 ≤ 2147483647 ∧
    Reachable 16 4096 4096 65536 [⟨65536, 100⟩, ⟨65652, 101⟩, ⟨65768, 3848⟩] ∧
    ∀ pre x y post,
      ([⟨65536, 100⟩, ⟨65652, 101⟩, ⟨65768, 3848⟩] : List block_header) =
        pre ++ x :: y :: post → ¬ (Free x ∧ Free y) :=
  ⟨by decide, by decide, reachable_fragmented,
    C11_no_adjacent_free_blocks 16 4096 4096 65536 (by decide) (by decide)
      [⟨65536, 100⟩, ⟨65652, 101⟩, ⟨65768, 3848⟩] reachable_fragmented⟩

/-! ## Invariants of the reachable states -/

theorem Chain.sum_sizes {H : Int} :
    ∀ {l : List block_header} {a e : Int}, Chain H a l e →
      (l.map (fun b => payload b + H)).sum = e - a := by
  intro l
  induction l with
  | nil => intro a e h; simp only [Chain] at h; simp [h]
  | cons b l ih =>
    intro a e h
    simp only [Chain] at h
    simp only [List.map_cons, List.sum_cons, ih h.2.2.2]
    omega

/-- C12: in every reachable state the sum over all blocks of payload size (the
status bit removed) plus `H` equals the region size rounded up to the page
size. -/
theorem C12_sizes_add_up_to_region (H P sz base : Int) (hPl : Platform H P)
    (hsz : sz + P ≤ 2147483647) (l : List block_header) (hR : Reachable H P sz base l) :
    (l.map (fun b => payload b + H)).sum = roundUp sz P := by
  obtain ⟨_, _, hc⟩ := hR.chain hPl hsz
  rw [hc.sum_sizes]; omega

/-- Witness of C12: after `Mem_Init(4096)`, `Mem_Alloc(100)`, `Mem_Alloc(200)` the
three blocks add up to 4096. -/
theorem C12_sizes_add_up_to_region_witness :
    Platform 16 4096 ∧ (4096 : Int) + 4096 ≤ 2147483647 ∧
    Reachable 16 4096 4096 65536 [⟨65536, 101⟩, ⟨65652, 201⟩, ⟨65868, 3748⟩] ∧
    (([⟨65536, 101⟩, ⟨65652, 201⟩, ⟨65868, 3748⟩] : List block_header).map
      (fun b => payload b + 16)).sum = roundUp 4096 4096 ∧
    roundUp 4096 4096 = 4096 :=
  ⟨by decide, by decide, reachable_alloc_100_200,
    C12_sizes_add_up_to_region 16 4096 4096 65536 (by decide) (by decide)
      [⟨65536, 101⟩, ⟨65652, 201⟩, ⟨65868, 3748⟩] reachable_alloc_100_200, by decide⟩

/-- C13: in every reachable state the head of the list is at the region base,
the successor of a block starts at this block's header address plus `H` plus
its payload size, header addresses strictly increase along the list, and no two
blocks share an address. -/
theorem C13_blocks_contiguous_and_ordered (H P sz base : Int) (hPl : Platform H P)
    (hsz : sz + P ≤ 2147483647) (l : List block_header) (hR : Reachable H P sz base l) :
    (∃ b rest, l = b :: rest ∧ b.addr = base) ∧
    (∀ pre x y post, l = pre ++ x :: y :: post → y.addr = x.addr + H + payload x) ∧
    List.Pairwise (fun x y => x.addr < y.addr) l ∧
    (l.map block_header.addr).Nodup := by
  obtain ⟨_, hpos, hc⟩ := hR.chain hPl hsz
  have hs := roundUp_spec (by unfold Platform at hPl; omega : 0 < P) hpos
  refine ⟨?_, ?_, hc.addr_lt hPl.1, hc.nodup hPl.1⟩
  · cases l with
    | nil => simp only [Chain] at hc; omega
    | cons b rest =>
      simp only [Chain] at hc
      exact ⟨b, rest, rfl, hc.1⟩
  · intro pre x y post hl
    rw [hl] at hc
    obtain ⟨m, _, h2⟩ := Chain.split hc
    simp only [Chain] at h2
    obtain ⟨h3, _, _, h4, _⟩ := h2
    omega

/-- Witness of C13 on the list left by `Mem_Init(4096)`, `Mem_Alloc(100)`,
`Mem_Alloc(200)`. -/
theorem C13_blocks_contiguous_and_ordered_witness :
    Platform 16 4096 ∧ (4096 : Int) + 4096 ≤ 2147483647 ∧
    Reachable 16 4096 4096 65536 [⟨65536, 101⟩, ⟨65652, 201⟩, ⟨65868, 3748⟩] ∧
    ((∃ b rest, ([⟨65536, 101⟩, ⟨65652, 201⟩, ⟨65868, 3748⟩] : List block_header) =
        b :: rest ∧ b.addr = 65536) ∧
    (∀ pre x y post,
      ([⟨65536, 101⟩, ⟨65652, 201⟩, ⟨65868, 3748⟩] : List block_header) =
        pre ++ x :: y :: post → y.addr = x.addr + 16 + payload x) ∧
    List.Pairwise (fun x y => x.addr < y.addr)
      ([⟨65536, 101⟩, ⟨65652, 201⟩, ⟨65868, 3748⟩] : List block_header) ∧
    (([⟨65536, 101⟩, ⟨65652, 201⟩, ⟨65868, 3748⟩] : List block_header).map
      block_header.addr).Nodup) :=
  ⟨by decide, by decide, reachable_alloc_100_200,
    C13_blocks_contiguous_and_ordered 16 4096 4096 65536 (by decide) (by decide)
      [⟨65536, 101⟩, ⟨65652, 201⟩, ⟨65868, 3748⟩] reachable_alloc_100_200⟩

/-- C14: with `H` and the page size multiples of 4, in every reachable state the
payload size of every block is a non-negative multiple of 4, `size_status` is 0
modulo 4 for a free block and 1 modulo 4 for a busy block, and the parity tests
of the code (lines 127 and 193) agree with the low bit. -/
theorem C14_payload_multiple_of_four (H P sz base : Int) (hPl : Platform H P)
    (hsz : sz + P ≤ 2147483647) (l : List block_header) (hR : Reachable H P sz base l) :
    ∀ b ∈ l, 0 ≤ payload b ∧ payload b % 4 = 0 ∧
      ((Free b ∧ b.size_status % 4 = 0) ∨ (Busy b ∧ b.size_status % 4 = 1)) ∧
      (b.size_status.tmod 2 = 0 ↔ Free b) ∧ (b.size_status.tmod 2 = 1 ↔ Busy b) := by
  intro b hb
  obtain ⟨_, _, hc⟩ := hR.chain hPl hsz
  obtain ⟨_, _, h0, h4⟩ := hc.mem_bounds (le_of_lt hPl.1) b hb
  refine ⟨by unfold payload; omega, by unfold payload; omega, ?_, free_iff_tmod h0,
    busy_iff_tmod h0⟩
  unfold Free Busy
  omega

/-- Witness of C14 on the list left by `Mem_Init(4096)`, `Mem_Alloc(100)`,
`Mem_Alloc(200)`. -/
theorem C14_payload_multiple_of_four_witness :
    Platform 16 4096 ∧ (4096 : Int) + 4096 ≤ 2147483647 ∧
    Reachable 16 4096 4096 65536 [⟨65536, 101⟩, ⟨65652, 201⟩, ⟨65868, 3748⟩] ∧
    ∀ b ∈ ([⟨65536, 101⟩, ⟨65652, 201⟩, ⟨65868, 3748⟩] : List block_header),
      0 ≤ payload b ∧ payload b % 4 = 0 ∧
      ((Free b ∧ b.size_status % 4 = 0) ∨ (Busy b ∧ b.size_status % 4 = 1)) ∧
      (b.size_status.tmod 2 = 0 ↔ Free b) ∧ (b.size_status.tmod 2 = 1 ↔ Busy b) :=
  ⟨by decide, by decide, reachable_alloc_100_200,
    C14_payload_multiple_of_four 16 4096 4096 65536 (by decide) (by decide)
      [⟨65536, 101⟩, ⟨65652, 201⟩, ⟨65868, 3748⟩] reachable_alloc_100_200⟩

/-! ## Initialisation -/

theorem Mem_Init_alloc_size_eq {P sz : Int} (hP : 0 < P) (hpos : 0 < sz)
    (hsz : sz + P ≤ 2147483647) : Mem_Init_alloc_size P sz = roundUp sz P := by
  have h0 : 0 ≤ sz % P := Int.emod_nonneg sz (ne_of_gt hP)
  have h1 : sz % P < P := Int.emod_lt_of_pos sz hP
  have e1 : sz.tmod P = sz % P := Int.tmod_eq_emod (le_of_lt hpos) (le_of_lt hP)
  have e2 : toInt (P - sz % P) = P - sz % P := toInt_of_range (by omega) (by omega)
  have e3 : (P - sz % P).tmod P = (P - sz % P) % P :=
    Int.tmod_eq_emod (by omega) (le_of_lt hP)
  have hs := roundUp_spec hP hpos
  simp only [Mem_Init_alloc_size, e1, e2, e3]
  unfold roundUp at hs ⊢
  exact toInt_of_range (by omega) (by omega)

/-- The rounded size is below every multiple of `P` that is at least `n`. -/
theorem roundUp_least {n P : Int} (hP : 0 < P) (hn : 0 < n) {m : Int} (hm : m % P = 0)
    (hle : n ≤ m) : roundUp n P ≤ m := by
  have hs := roundUp_spec hP hn
  by_contra hc
  have hd : P ∣ roundUp n P - m :=
    Int.dvd_sub (Int.dvd_of_emod_eq_zero hs.1) (Int.dvd_of_emod_eq_zero hm)
  have := Int.le_of_dvd (by omega) hd
  omega

/-- The one call of `Mem_Init`: when it returns 0, and what it leaves. -/
theorem Mem_Init_cases (H : Int) (env : Env) (s : State) (sz : Int) :
    ((Mem_Init H env s sz).1 = 0 ↔
      (s.allocated_once = 0 ∧ 0 < sz ∧ env.fd ≠ -1 ∧ env.space_ptr ≠ none)) ∧
    ((Mem_Init H env s sz).1 = 0 →
      ∃ base, env.space_ptr = some base ∧
        (Mem_Init H env s sz).2 =
          ⟨[⟨base, toInt (Mem_Init_alloc_size env.pagesize sz - H)⟩], 1⟩) ∧
    ((Mem_Init H env s sz).1 ≠ 0 → Mem_Init H env s sz = (-1, s)) := by
  obtain ⟨l, f⟩ := s
  obtain ⟨P, fd, sp⟩ := env
  by_cases hf : f = 0
  · subst hf
    by_cases hsz : sz ≤ 0
    · simp [Mem_Init, hsz, not_lt.2 hsz]
    · by_cases hfd : -1 = fd
      · subst hfd
        simp [Mem_Init, hsz]
      · have hfd' : ¬ fd = -1 := fun h => hfd h.symm
        cases sp with
        | none => simp [Mem_Init, hsz, hfd, hfd']
        | some base =>
          simp [Mem_Init, hsz, hfd, hfd', not_le.1 hsz, Mem_Init_alloc_size]
  · have hf' : ¬ 0 = f := fun h => hf h.symm
    simp [Mem_Init, hf, hf']

/-- C15: a successful `Mem_Init(regionSize)` (so `regionSize > 0`), with a page
size `P > 0` and `regionSize + P` in the range of `int`, asks for a region whose
length is the least multiple of `P` that is at least `regionSize`, and installs a
list of exactly one block: at the region base, free, without successor, of
payload size that length minus `H`.  `H` and `P` are even, as on every
platform. -/
theorem C15_init_installs_single_free_block (H : Int) (env : Env) (s : State) (sz : Int)
    (hH : 0 ≤ H) (hH' : H < 2147483648) (hH2 : H % 2 = 0)
    (hP : 0 < env.pagesize) (hP2 : env.pagesize % 2 = 0)
    (hsz : sz + env.pagesize ≤ 2147483647) (hok : (Mem_Init H env s sz).1 = 0) :
    0 < sz ∧
    Mem_Init_alloc_size env.pagesize sz = roundUp sz env.pagesize ∧
    roundUp sz env.pagesize % env.pagesize = 0 ∧ sz ≤ roundUp sz env.pagesize ∧
    (∀ m, m % env.pagesize = 0 → sz ≤ m → roundUp sz env.pagesize ≤ m) ∧
    ∃ base, env.space_ptr = some base ∧
      (Mem_Init H env s sz).2.list_head = [⟨base, roundUp sz env.pagesize - H⟩] ∧
      Free ⟨base, roundUp sz env.pagesize - H⟩ ∧
      payload ⟨base, roundUp sz env.pagesize - H⟩ = roundUp sz env.pagesize - H := by
  obtain ⟨h1, h2, _⟩ := Mem_Init_cases H env s sz
  have hpos : 0 < sz := (h1.1 hok).2.1
  obtain ⟨base, hb, e⟩ := h2 hok
  have hs := roundUp_spec hP hpos
  have ea := Mem_Init_alloc_size_eq hP hpos hsz
  have heven : roundUp sz env.pagesize % 2 = 0 := by
    have hd : (2 : Int) ∣ env.pagesize := Int.dvd_of_emod_eq_zero hP2
    rw [← Int.emod_emod_of_dvd _ hd, hs.1]; rfl
  have hfree : (roundUp sz env.pagesize - H) % 2 = 0 := by omega
  refine ⟨hpos, ea, hs.1, hs.2.1, fun m hm hle => roundUp_least hP hpos hm hle, base, hb, ?_,
    hfree, ?_⟩
  · rw [e, ea, toInt_of_range (by omega) (by omega)]
  · unfold payload
    show roundUp sz env.pagesize - H - (roundUp sz env.pagesize - H) % 2 = _
    omega

/-- Witness of C15: `Mem_Init(4096)` with a 16 byte header, 4096 byte pages and
the region at 65536 installs one free block of 4080 bytes. -/
theorem C15_init_installs_single_free_block_witness :
    (Mem_Init 16 ⟨4096, 3, some 65536⟩ State.initial 4096).1 = 0 ∧
    ((0 : Int) < 4096 ∧
    Mem_Init_alloc_size (⟨4096, 3, some 65536⟩ : Env).pagesize 4096 =
      roundUp 4096 (⟨4096, 3, some 65536⟩ : Env).pagesize ∧
    roundUp 4096 (⟨4096, 3, some 65536⟩ : Env).pagesize %
      (⟨4096, 3, some 65536⟩ : Env).pagesize = 0 ∧
    4096 ≤ roundUp 4096 (⟨4096, 3, some 65536⟩ : Env).pagesize ∧
    (∀ m, m % (⟨4096, 3, some 65536⟩ : Env).pagesize = 0 → 4096 ≤ m →
      roundUp 4096 (⟨4096, 3, some 65536⟩ : Env).pagesize ≤ m) ∧
    ∃ base, (⟨4096, 3, some 65536⟩ : Env).space_ptr = some base ∧
      (Mem_Init 16 ⟨4096, 3, some 65536⟩ State.initial 4096).2.list_head =
        [⟨base, roundUp 4096 (⟨4096, 3, some 65536⟩ : Env).pagesize - 16⟩] ∧
      Free ⟨base, roundUp 4096 (⟨4096, 3, some 65536⟩ : Env).pagesize - 16⟩ ∧
      payload ⟨base, roundUp 4096 (⟨4096, 3, some 65536⟩ : Env).pagesize - 16⟩ =
        roundUp 4096 (⟨4096, 3, some 65536⟩ : Env).pagesize - 16) ∧
    (Mem_Init 16 ⟨4096, 3, some 65536⟩ State.initial 4096).2.list_head = [⟨65536, 4080⟩] :=
  ⟨by decide,
    C15_init_installs_single_free_block 16 ⟨4096, 3, some 65536⟩ State.initial 4096
      (by decide) (by decide) (by decide) (by decide) (by decide) (by decide) (by decide),
    by decide⟩

theorem step_allocated_once (H : Int) (s : State) (c : Call) :
    ((step H s c).2.allocated_once = s.allocated_once) ∨
    (∃ env sz, c = Call.init env sz ∧ (Mem_Init H env s sz).1 = 0 ∧
      s.allocated_once = 0 ∧ (step H s c).2.allocated_once = 1) := by
  cases c with
  | init env sz =>
    obtain ⟨h1, h2, h3⟩ := Mem_Init_cases H env s sz
    by_cases hok : (Mem_Init H env s sz).1 = 0
    · right
      obtain ⟨base, _, e⟩ := h2 hok
      exact ⟨env, sz, rfl, hok, (h1.1 hok).1, by simp [step, e]⟩
    · left
      simp [step, h3 hok]
  | alloc size => left; rfl
  | free ptr => left; rfl
  | dump => left; rfl

theorem run_allocated_once_of_ne (H : Int) :
    ∀ (calls : List Call) (s : State), s.allocated_once ≠ 0 →
      (run H s calls).allocated_once ≠ 0 ∧ initSucceeded H s calls = false := by
  intro calls
  induction calls with
  | nil => intro s hs; exact ⟨hs, rfl⟩
  | cons c cs ih =>
    intro s hs
    rcases step_allocated_once H s c with h | ⟨_, _, _, _, h0, _⟩
    · have h' := ih (step H s c).2 (by rw [h]; exact hs)
      refine ⟨h'.1, ?_⟩
      simp only [initSucceeded, h'.2, Bool.or_false]
      cases c with
      | init env sz =>
        have := (Mem_Init_cases H env s sz).1
        simp only [decide_eq_false_iff_not]
        intro hc
        exact hs (this.1 hc).1
      | alloc size => rfl
      | free ptr => rfl
      | dump => rfl
    · exact absurd h0 hs

/-- The flag `allocated_once` is clear exactly when no earlier call of
`Mem_Init` returned 0. -/
theorem run_allocated_once (H : Int) :
    ∀ (calls : List Call) (s : State), s.allocated_once = 0 →
      ((run H s calls).allocated_once = 0 ↔ initSucceeded H s calls = false) := by
  intro calls
  induction calls with
  | nil => intro s hs; simp [run, initSucceeded, hs]
  | cons c cs ih =>
    intro s hs
    rcases step_allocated_once H s c with h | ⟨env, sz, rfl, hok, _, h1⟩
    · have h' := ih (step H s c).2 (by rw [h]; exact hs)
      simp only [run, initSucceeded]
      rw [h']
      cases c with
      | init env sz =>
        by_cases hok : (Mem_Init H env s sz).1 = 0
        · exfalso
          obtain ⟨base, _, e⟩ := (Mem_Init_cases H env s sz).2.1 hok
          simp [step, e, hs] at h
        · simp [hok]
      | alloc size => simp
      | free ptr => simp
      | dump => simp
    · have h' := run_allocated_once_of_ne H cs (step H s (Call.init env sz)).2
        (by rw [h1]; decide)
      simp only [run, initSucceeded, hok, decide_True, Bool.true_or]
      simp [h'.1]

/-- C16: after any sequence of calls from program start, `Mem_Init(regionSize)`
returns 0 exactly when no earlier call of `Mem_Init` returned 0, `regionSize > 0`,
`open` did not return -1 and `mmap` did not fail; otherwise it returns -1 and
leaves the list head and the flag as they were.  In particular `Mem_Init(0)` and
`Mem_Init(-5)` fail. -/
theorem C16_init_succeeds_at_most_once (H : Int) (calls : List Call) (env : Env) (sz : Int) :
    ((Mem_Init H env (run H State.initial calls) sz).1 = 0 ↔
      (initSucceeded H State.initial calls = false ∧ 0 < sz ∧ env.fd ≠ -1 ∧
        env.space_ptr ≠ none)) ∧
    ((Mem_Init H env (run H State.initial calls) sz).1 ≠ 0 →
      (Mem_Init H env (run H State.initial calls) sz).1 = -1 ∧
      (Mem_Init H env (run H State.initial calls) sz).2 = run H State.initial calls) ∧
    (Mem_Init H env (run H State.initial calls) 0).1 = -1 ∧
    (Mem_Init H env (run H State.initial calls) (-5)).1 = -1 := by
  have hflag := run_allocated_once H calls State.initial rfl
  obtain ⟨h1, _, h3⟩ := Mem_Init_cases H env (run H State.initial calls) sz
  refine ⟨?_, ?_, ?_, ?_⟩
  · rw [h1, hflag]
  · intro hne
    rw [h3 hne]; exact ⟨rfl, rfl⟩
  · obtain ⟨g1, _, g3⟩ := Mem_Init_cases H env (run H State.initial calls) 0
    have : (Mem_Init H env (run H State.initial calls) 0).1 ≠ 0 :=
      fun hc => absurd (g1.1 hc).2.1 (by decide)
    rw [g3 this]
  · obtain ⟨g1, _, g3⟩ := Mem_Init_cases H env (run H State.initial calls) (-5)
    have : (Mem_Init H env (run H State.initial calls) (-5)).1 ≠ 0 :=
      fun hc => absurd (g1.1 hc).2.1 (by decide)
    rw [g3 this]

/-! ## Frame: what a call leaves alone -/

theorem mem_keptLeft {pre : List block_header} {c : block_header} (hc : c ∈ pre)
    (hnf : ¬ Free c) : c ∈ pre.take (pre.length - (absorbedLeft pre).length) := by
  rcases List.eq_nil_or_concat pre with rfl | ⟨pre', P, rfl⟩
  · cases hc
  · simp only [List.concat_eq_append] at *
    by_cases hP : Free P
    · have e : List.take ((pre' ++ [P]).length - (absorbedLeft (pre' ++ [P])).length)
          (pre' ++ [P]) = pre' := by
        simp [absorbedLeft, hP]
      rw [e]
      rcases List.mem_append.1 hc with h | h
      · exact h
      · simp at h; subst h; exact absurd hP hnf
    · have e : List.take ((pre' ++ [P]).length - (absorbedLeft (pre' ++ [P])).length)
          (pre' ++ [P]) = pre' ++ [P] := by
        simp [absorbedLeft, hP]
      rw [e]; exact hc

theorem mem_keptRight {post : List block_header} {c : block_header} (hc : c ∈ post)
    (hnf : ¬ Free c) : c ∈ post.drop (absorbedRight post).length := by
  cases post with
  | nil => cases hc
  | cons N post' =>
    by_cases hN : Free N
    · have e : List.drop (absorbedRight (N :: post')).length (N :: post') = post' := by
        simp [absorbedRight, hN]
      rw [e]
      rcases List.mem_cons.1 hc with h | h
      · subst h; exact absurd hN hnf
      · exact h
    · have e : List.drop (absorbedRight (N :: post')).length (N :: post') = N :: post' := by
        simp [absorbedRight, hN]
      rw [e]; exact hc

theorem not_free_of_busy {c : block_header} (h : Busy c) : ¬ Free c := by
  unfold Busy at h; unfold Free; omega

/-- C17: in a reachable state a busy block stays in the list, with the same
header address, status and size, after any `Mem_Alloc(n)` and after any
`Mem_Free(p)` whose `p - H` is not the address of that block. -/
theorem C17_busy_blocks_are_preserved (H P sz base : Int) (hPl : Platform H P)
    (hsz : sz + P ≤ 2147483647) (l : List block_header) (hR : Reachable H P sz base l)
    (c : block_header) (hc : c ∈ l) (hbusy : Busy c) :
    (∀ n, -2147483648 ≤ n → n < 2147483648 → c ∈ (Mem_Alloc H l n).2) ∧
    (∀ p, p - H ≠ c.addr → c ∈ (Mem_Free H l p).2) := by
  obtain ⟨_, hpos, hch⟩ := hR.chain hPl hsz
  have hP : 0 < P := by unfold Platform at hPl; omega
  have hs := roundUp_spec hP hpos
  have hwt := hR.sizes_in_range hPl hsz
  have hnf := not_free_of_busy hbusy
  constructor
  · intro n _ hn
    rcases Mem_Alloc_cases (le_of_lt hPl.1) (by unfold Platform at hPl; omega) hwt hn with
      ⟨e, _⟩ | ⟨_, _, pre, b, post, hl, _, hb, e⟩
    · rw [e]; exact hc
    · rw [e]
      rw [hl] at hc
      rcases List.mem_append.1 hc with h | h
      · exact List.mem_append_left _ h
      · rcases List.mem_cons.1 h with h | h
        · subst h; exact absurd hb.1 hnf
        · simp [h]
  · intro p hp
    by_cases hok : (Mem_Free H l p).1 = 0
    · obtain ⟨pre, B, post, hl, hB, _, e⟩ :=
        Mem_Free_success hPl.1 hPl.2.1 (by omega) hch hok
      rw [e]
      unfold coalesced
      rw [hl] at hc
      rcases List.mem_append.1 hc with h | h
      · exact List.mem_append_left _ (mem_keptLeft h hnf)
      · rcases List.mem_cons.1 h with h | h
        · subst h; exact absurd hB.symm hp
        · exact List.mem_append_right _ (List.mem_cons_of_mem _ (mem_keptRight h hnf))
    · rcases Mem_Free_cases H l p with ⟨_, e1⟩ | ⟨_, _, e1⟩ | ⟨_, pre, B, post, _, _, _, e1⟩
      · rw [e1]; exact hc
      · rw [e1]; exact hc
      · by_cases hb : B.size_status.tmod 2 = 1
        · rw [e1, if_pos hb] at hok; exact absurd rfl hok
        · rw [e1, if_neg hb]; exact hc

/-- Witness of C17: after `Mem_Init(4096)`, `Mem_Alloc(100)`, `Mem_Alloc(200)` the
first block survives `Mem_Alloc(300)` and the release of the second block. -/
theorem C17_busy_blocks_are_preserved_witness :
    Platform 16 4096 ∧ (4096 : Int) + 4096 ≤ 2147483647 ∧
    Reachable 16 4096 4096 65536 [⟨65536, 101⟩, ⟨65652, 201⟩, ⟨65868, 3748⟩] ∧
    (⟨65536, 101⟩ : block_header) ∈
      ([⟨65536, 101⟩, ⟨65652, 201⟩, ⟨65868, 3748⟩] : List block_header) ∧
    Busy ⟨65536, 101⟩ ∧
    (⟨65536, 101⟩ : block_header) ∈
      (Mem_Alloc 16 [⟨65536, 101⟩, ⟨65652, 201⟩, ⟨65868, 3748⟩] 300).2 ∧
    (⟨65536, 101⟩ : block_header) ∈
      (Mem_Free 16 [⟨65536, 101⟩, ⟨65652, 201⟩, ⟨65868, 3748⟩] 65668).2 :=
  ⟨by decide, by decide, reachable_alloc_100_200, by decide, by decide,
    (C17_busy_blocks_are_preserved 16 4096 4096 65536 (by decide) (by decide)
      [⟨65536, 101⟩, ⟨65652, 201⟩, ⟨65868, 3748⟩] reachable_alloc_100_200 ⟨65536, 101⟩
      (by decide) (by decide)).1 300 (by decide) (by decide),
    (C17_busy_blocks_are_preserved 16 4096 4096 65536 (by decide) (by decide)
      [⟨65536, 101⟩, ⟨65652, 201⟩, ⟨65868, 3748⟩] reachable_alloc_100_200 ⟨65536, 101⟩
      (by decide) (by decide)).2 65668 (by decide)⟩

/-! ## The report of `Mem_Dump` -/

theorem toInt_toInt_add (a b : Int) : toInt (toInt a + b) = toInt (a + b) := by
  unfold toInt; omega

theorem toInt_add_toInt (a b : Int) : toInt (a + toInt b) = toInt (a + b) := by
  unfold toInt; omega

theorem toInt_idem (a : Int) : toInt (toInt a) = toInt a := by
  unfold toInt; omega

theorem busyTotal_cons (H : Int) (b : block_header) (l : List block_header) :
    busyTotal H (b :: l) = (if Busy b then payload b + H else 0) + busyTotal H l := by
  unfold busyTotal
  by_cases h : Busy b <;> simp [List.filter_cons, h]

theorem freeTotal_cons (H : Int) (b : block_header) (l : List block_header) :
    freeTotal H (b :: l) = (if Free b then payload b + H else 0) + freeTotal H l := by
  unfold freeTotal
  by_cases h : Free b <;> simp [List.filter_cons, h]

theorem busyTotal_add_freeTotal (H : Int) (l : List block_header) :
    busyTotal H l + freeTotal H l = (l.map (fun b => payload b + H)).sum := by
  induction l with
  | nil => simp [busyTotal, freeTotal]
  | cons b l ih =>
    rw [busyTotal_cons, freeTotal_cons, List.map_cons, List.sum_cons, ← ih]
    rcases Int.emod_two_eq b.size_status with h | h
    · have h1 : Free b := h
      have h2 : ¬ Busy b := by unfold Busy; omega
      rw [if_neg h2, if_pos h1]; omega
    · have h1 : Busy b := h
      have h2 : ¬ Free b := by unfold Free; omega
      rw [if_pos h1, if_neg h2]; omega

theorem totals_nonneg {H : Int} (hH : 0 ≤ H) {l : List block_header} (hwt : WellTyped l) :
    0 ≤ busyTotal H l ∧ 0 ≤ freeTotal H l := by
  induction l with
  | nil => simp [busyTotal, freeTotal]
  | cons b l ih =>
    have hb := hwt b (List.mem_cons_self _ _)
    have ih' := ih (fun c hc => hwt c (List.mem_cons_of_mem _ hc))
    have hp : 0 ≤ payload b := by unfold payload; omega
    rw [busyTotal_cons, freeTotal_cons]
    constructor
    · split <;> omega
    · split <;> omega

/-- The loop of `Mem_Dump` adds, modulo the width of `int`, the sizes of the
busy blocks to `busy_size`, those of the free blocks to `free_size`, and all of
them to `total_size`. -/
theorem Mem_Dump_loop_totals (H : Int) :
    ∀ (l : List block_header) (d : DumpState),
      toInt (Mem_Dump_loop H l d).busy_size = toInt (d.busy_size + busyTotal H l) ∧
      toInt (Mem_Dump_loop H l d).free_size = toInt (d.free_size + freeTotal H l) ∧
      toInt (Mem_Dump_loop H l d).total_size =
        toInt (d.total_size + (busyTotal H l + freeTotal H l)) ∧
      (toInt d.busy_size = d.busy_size →
        toInt (Mem_Dump_loop H l d).busy_size = (Mem_Dump_loop H l d).busy_size) ∧
      (toInt d.free_size = d.free_size →
        toInt (Mem_Dump_loop H l d).free_size = (Mem_Dump_loop H l d).free_size) ∧
      (toInt d.total_size = d.total_size →
        toInt (Mem_Dump_loop H l d).total_size = (Mem_Dump_loop H l d).total_size) := by
  intro l
  induction l with
  | nil => intro d; simp [Mem_Dump_loop, busyTotal, freeTotal]
  | cons b l ih =>
    intro d
    rw [busyTotal_cons, freeTotal_cons]
    rcases Int.emod_two_eq b.size_status with h | h
    · have h1 : Free b := h
      have h2 : ¬ Busy b := by unfold Busy; omega
      have hp : payload b = b.size_status := by unfold payload; omega
      simp only [Mem_Dump_loop, h, ne_eq, not_true_eq_false, decide_False, Bool.false_eq_true,
        if_false, if_neg h2, if_pos h1, hp]
      obtain ⟨i1, i2, i3, i4, i5, i6⟩ := ih
        { free_size := toInt (d.free_size + toInt (b.size_status + H))
          busy_size := d.busy_size
          total_size := toInt (d.total_size + toInt (b.size_status + H))
          counter := toInt (d.counter + 1)
          rows := d.rows ++
            [⟨d.counter, false, b.addr + H, b.addr + H + b.size_status, b.size_status,
              toInt (b.size_status + H), b.addr⟩] }
      dsimp only at i1 i2 i3 i4 i5 i6
      refine ⟨?_, ?_, ?_, i4, fun _ => i5 (toInt_idem _), fun _ => i6 (toInt_idem _)⟩
      · rw [i1]; simp
      · rw [i2]; unfold toInt; omega
      · rw [i3]; unfold toInt; omega
    · have h1 : Busy b := h
      have h2 : ¬ Free b := by unfold Free; omega
      have hp : payload b = b.size_status - 1 := by unfold payload; omega
      simp only [Mem_Dump_loop, h, ne_eq, one_ne_zero, not_false_eq_true, decide_True, if_true,
        if_pos h1, if_neg h2, hp]
      obtain ⟨i1, i2, i3, i4, i5, i6⟩ := ih
        { free_size := d.free_size
          busy_size := toInt (d.busy_size + toInt (toInt (b.size_status - 1) + H))
          total_size := toInt (d.total_size + toInt (toInt (b.size_status - 1) + H))
          counter := toInt (d.counter + 1)
          rows := d.rows ++
            [⟨d.counter, true, b.addr + H, b.addr + H + toInt (b.size_status - 1),
              toInt (b.size_status - 1), toInt (toInt (b.size_status - 1) + H), b.addr⟩] }
      dsimp only at i1 i2 i3 i4 i5 i6
      refine ⟨?_, ?_, ?_, fun _ => i4 (toInt_idem _), i5, fun _ => i6 (toInt_idem _)⟩
      · rw [i1]; unfold toInt; omega
      · rw [i2]; simp
      · rw [i3]; unfold toInt; omega

theorem Mem_Dump_totals (H : Int) (l : List block_header) :
    (Mem_Dump H l).total_busy = toInt (busyTotal H l) ∧
    (Mem_Dump H l).total_free = toInt (freeTotal H l) ∧
    (Mem_Dump H l).total_size = toInt (busyTotal H l + freeTotal H l) := by
  obtain ⟨i1, i2, i3, i4, i5, i6⟩ := Mem_Dump_loop_totals H l ⟨0, 0, 0, 1, []⟩
  simp only [Mem_Dump]
  refine ⟨?_, ?_, ?_⟩
  · rw [← i4 rfl, i1]; simp
  · rw [← i5 rfl, i2]; simp
  · rw [← i6 rfl, i3]; simp

/-- C18: `Mem_Dump` only reads the list.  The `Total busy size` it prints is the
sum over the busy blocks of payload size plus `H`, the `Total free size` is the
sum over the free blocks of payload size plus `H`, `Total size` is their sum and
equals the variable `total_size` accumulated over all blocks, each as an `int`;
in a reachable state the three are these sums exactly and `Total size` is the
rounded region size. -/
theorem C18_dump_reports_totals (H : Int) (l : List block_header) :
    (∀ s : State, (step H s Call.dump).2 = s) ∧
    (Mem_Dump H l).total_busy = toInt (busyTotal H l) ∧
    (Mem_Dump H l).total_free = toInt (freeTotal H l) ∧
    (Mem_Dump H l).total = toInt ((Mem_Dump H l).total_busy + (Mem_Dump H l).total_free) ∧
    (Mem_Dump H l).total = toInt (busyTotal H l + freeTotal H l) ∧
    (Mem_Dump H l).total_size = (Mem_Dump H l).total ∧
    (∀ P sz base, Platform H P → sz + P ≤ 2147483647 → Reachable H P sz base l →
      (Mem_Dump H l).total_busy = busyTotal H l ∧
      (Mem_Dump H l).total_free = freeTotal H l ∧
      (Mem_Dump H l).total = busyTotal H l + freeTotal H l ∧
      (Mem_Dump H l).total_size = (l.map (fun b => payload b + H)).sum ∧
      (Mem_Dump H l).total = roundUp sz P) := by
  obtain ⟨h1, h2, h3⟩ := Mem_Dump_totals H l
  have h4 : (Mem_Dump H l).total =
      toInt ((Mem_Dump H l).total_busy + (Mem_Dump H l).total_free) := rfl
  have h5 : (Mem_Dump H l).total = toInt (busyTotal H l + freeTotal H l) := by
    rw [h4, h1, h2]; unfold toInt; omega
  refine ⟨fun _ => rfl, h1, h2, h4, h5, by rw [h3, h5], ?_⟩
  intro P sz base hPl hsz hR
  obtain ⟨_, hpos, hc⟩ := hR.chain hPl hsz
  have hs := roundUp_spec (by unfold Platform at hPl; omega : 0 < P) hpos
  have hn := totals_nonneg (le_of_lt hPl.1) (hR.sizes_in_range hPl hsz)
  have hsum := busyTotal_add_freeTotal H l
  rw [hc.sum_sizes] at hsum
  have e1 : toInt (busyTotal H l) = busyTotal H l := toInt_of_range (by omega) (by omega)
  have e2 : toInt (freeTotal H l) = freeTotal H l := toInt_of_range (by omega) (by omega)
  have e3 : toInt (busyTotal H l + freeTotal H l) = busyTotal H l + freeTotal H l :=
    toInt_of_range (by omega) (by omega)
  refine ⟨by rw [h1, e1], by rw [h2, e2], by rw [h5, e3], ?_, by rw [h5, e3]; omega⟩
  rw [h3, e3, busyTotal_add_freeTotal]

/-- Witness of C18: the report on the list left by `Mem_Init(4096)`,
`Mem_Alloc(100)`, `Mem_Alloc(200)` has the totals 332, 3764 and 4096. -/
theorem C18_dump_reports_totals_witness :
    Platform 16 4096 ∧ (4096 : Int) + 4096 ≤ 2147483647 ∧
    Reachable 16 4096 4096 65536 [⟨65536, 101⟩, ⟨65652, 201⟩, ⟨65868, 3748⟩] ∧
    ((Mem_Dump 16 [⟨65536, 101⟩, ⟨65652, 201⟩, ⟨65868, 3748⟩]).total_busy =
        busyTotal 16 [⟨65536, 101⟩, ⟨65652, 201⟩, ⟨65868, 3748⟩] ∧
      (Mem_Dump 16 [⟨65536, 101⟩, ⟨65652, 201⟩, ⟨65868, 3748⟩]).total_free =
        freeTotal 16 [⟨65536, 101⟩, ⟨65652, 201⟩, ⟨65868, 3748⟩] ∧
      (Mem_Dump 16 [⟨65536, 101⟩, ⟨65652, 201⟩, ⟨65868, 3748⟩]).total =
        busyTotal 16 [⟨65536, 101⟩, ⟨65652, 201⟩, ⟨65868, 3748⟩] +
          freeTotal 16 [⟨65536, 101⟩, ⟨65652, 201⟩, ⟨65868, 3748⟩] ∧
      (Mem_Dump 16 [⟨65536, 101⟩, ⟨65652, 201⟩, ⟨65868, 3748⟩]).total_size =
        (([⟨65536, 101⟩, ⟨65652, 201⟩, ⟨65868, 3748⟩] : List block_header).map
          (fun b => payload b + 16)).sum ∧
      (Mem_Dump 16 [⟨65536, 101⟩, ⟨65652, 201⟩, ⟨65868, 3748⟩]).total =
        roundUp 4096 4096) ∧
    (Mem_Dump 16 [⟨65536, 101⟩, ⟨65652, 201⟩, ⟨65868, 3748⟩]).total_busy = 332 ∧
    (Mem_Dump 16 [⟨65536, 101⟩, ⟨65652, 201⟩, ⟨65868, 3748⟩]).total_free = 3764 ∧
    (Mem_Dump 16 [⟨65536, 101⟩, ⟨65652, 201⟩, ⟨65868, 3748⟩]).total = 4096 :=
  ⟨by decide, by decide, reachable_alloc_100_200,
    (C18_dump_reports_totals 16 [⟨65536, 101⟩, ⟨65652, 201⟩, ⟨65868, 3748⟩]).2.2.2.2.2.2
      4096 4096 65536 (by decide) (by decide) reachable_alloc_100_200,
    by decide, by decide, by decide⟩

/-! ## Allocation: marking and the exact success condition -/

/-- C19: in a reachable state every successful `Mem_Alloc` marks the block it
selects busy, wherever that block is in the list: the call returns a pointer
derived from the header of a block `b` of the list, and after the call the block
at that place has the address of `b` and an odd `size_status`; this covers `b`
being the last node (`post = []`). -/
theorem C19_allocated_block_is_marked_busy (H P sz base : Int) (hPl : Platform H P)
    (hsz : sz + P ≤ 2147483647) (l : List block_header) (hR : Reachable H P sz base l)
    (size : Int) (hs : size < 2147483648) (hok : (Mem_Alloc H l size).1 ≠ NULL) :
    ∃ pre b post rem, l = pre ++ b :: post ∧
      (Mem_Alloc H l size).1 = b.addr + H * H ∧
      (Mem_Alloc H l size).2 = pre ++ ⟨b.addr, roundSize size + 1⟩ :: rem :: post ∧
      (roundSize size + 1) % 2 = 1 ∧ Busy ⟨b.addr, roundSize size + 1⟩ := by
  obtain ⟨_, hpos, _⟩ := hR.chain hPl hsz
  have hwt := hR.sizes_in_range hPl hsz
  rcases Mem_Alloc_cases (le_of_lt hPl.1) (by unfold Platform at hPl; omega) hwt hs with
    ⟨e, _⟩ | ⟨h1, h2, pre, b, post, hl, _, _, e⟩
  · rw [e] at hok; exact absurd rfl hok
  · have hr := roundSize_of_range h1 h2
    have hodd : (roundSize size + 1) % 2 = 1 := by rw [hr]; omega
    exact ⟨pre, b, post, _, hl, by rw [e], by rw [e], hodd, hodd⟩

/-- Witness of C19: `Mem_Alloc(100)` right after `Mem_Init(4096)` selects the only
node of the list, which is its last node, and marks it busy. -/
theorem C19_allocated_block_is_marked_busy_witness :
    Platform 16 4096 ∧ (4096 : Int) + 4096 ≤ 2147483647 ∧
    Reachable 16 4096 4096 65536 [⟨65536, 4080⟩] ∧
    (Mem_Alloc 16 [⟨65536, 4080⟩] 100).1 ≠ NULL ∧
    (Mem_Alloc 16 [⟨65536, 4080⟩] 100).2 = [⟨65536, 101⟩, ⟨65652, 3964⟩] ∧
    ∃ pre b post rem, [(⟨65536, 4080⟩ : block_header)] = pre ++ b :: post ∧
      (Mem_Alloc 16 [⟨65536, 4080⟩] 100).1 = b.addr + 16 * 16 ∧
      (Mem_Alloc 16 [⟨65536, 4080⟩] 100).2 =
        pre ++ ⟨b.addr, roundSize 100 + 1⟩ :: rem :: post ∧
      (roundSize 100 + 1) % 2 = 1 ∧ Busy ⟨b.addr, roundSize 100 + 1⟩ :=
  ⟨by decide, by decide, reachable_init, by decide, by decide,
    C19_allocated_block_is_marked_busy 16 4096 4096 65536 (by decide) (by decide)
      [⟨65536, 4080⟩] reachable_init 100 (by decide) (by decide)⟩

/-- C20: in a reachable state, for `size >= 1` whose rounding `r` fits an `int`,
`Mem_Alloc(size)` returns a non-null pointer exactly when some free block has a
payload capacity strictly greater than `r + H`; on every block of the list the
test of line 127 implies the test of line 130, so the branch of lines 142-147 is
never taken; and every successful call makes the list one block longer. -/
theorem C20_alloc_succeeds_iff_room_for_split (H P sz base : Int) (hPl : Platform H P)
    (hsz : sz + P ≤ 2147483647) (l : List block_header) (hR : Reachable H P sz base l)
    (size r : Int) (h1 : 1 ≤ size) (hr4 : r % 4 = 0) (hle : size ≤ r) (hlt : r < size + 4)
    (hov : r < 2147483648) :
    ((Mem_Alloc H l size).1 ≠ NULL ↔ ∃ b ∈ l, Free b ∧ r + H < b.size_status) ∧
    (∀ b ∈ l, (b.size_status.tmod 2 = 0 ∧ toSizeT (r + H) < toSizeT b.size_status) →
      toSizeT (toInt (b.size_status - r) - H) > 0) ∧
    ((Mem_Alloc H l size).1 ≠ NULL → (Mem_Alloc H l size).2.length = l.length + 1) := by
  obtain ⟨hbase, hpos, hc⟩ := hR.chain hPl hsz
  have hwt := hR.sizes_in_range hPl hsz
  have hH : 0 ≤ H := le_of_lt hPl.1
  have hH' : H < 2147483648 := by unfold Platform at hPl; omega
  have hr := roundSize_unique h1 (by omega) hr4 hle hlt
  have hcases := Mem_Alloc_cases hH hH' hwt (by omega : size < 2147483648)
  rw [hr] at hcases
  refine ⟨?_, ?_, ?_⟩
  · constructor
    · intro hok
      rcases hcases with ⟨e, _⟩ | ⟨_, _, pre, b, post, hl, _, hb, _⟩
      · rw [e] at hok; exact absurd rfl hok
      · exact ⟨b, by rw [hl]; simp, hb.1, hb.2⟩
    · rintro ⟨b, hb, hfree, hfit⟩
      rcases hcases with ⟨_, h | h | h⟩ | ⟨_, _, pre, b', post, hl, _, _, e⟩
      · omega
      · omega
      · exact absurd (⟨hfree, hfit⟩ : Fits H r b) (h b hb)
      · rw [e]
        have hb'a := (hc.mem_bounds hH b' (by rw [hl]; simp)).1
        have : 0 ≤ H * H := Int.mul_nonneg hH hH
        show b'.addr + H * H ≠ 0
        omega
  · intro b hb hcond
    have hb0 := hwt b hb
    have hfit := (alloc_test_iff hH hH' (by omega) hov hb0).1 hcond
    have h2 : r + H < b.size_status := hfit.2
    rw [toInt_of_range (by omega) (by omega), toSizeT_of_range (by omega) (by omega)]
    omega
  · intro hok
    rcases hcases with ⟨e, _⟩ | ⟨_, _, pre, b, post, hl, _, _, e⟩
    · rw [e] at hok; exact absurd rfl hok
    · rw [e, hl]; simp only [List.length_append, List.length_cons]; omega

/-- Witness of C20: on the arena of `Mem_Init(4096)` a request of 100 bytes
succeeds and the list grows from one block to two. -/
theorem C20_alloc_succeeds_iff_room_for_split_witness :
    Platform 16 4096 ∧ (4096 : Int) + 4096 ≤ 2147483647 ∧
    Reachable 16 4096 4096 65536 [⟨65536, 4080⟩] ∧
    (((Mem_Alloc 16 [⟨65536, 4080⟩] 100).1 ≠ NULL ↔
      ∃ b ∈ ([⟨65536, 4080⟩] : List block_header), Free b ∧ 100 + 16 < b.size_status) ∧
    (∀ b ∈ ([⟨65536, 4080⟩] : List block_header),
      (b.size_status.tmod 2 = 0 ∧ toSizeT (100 + 16) < toSizeT b.size_status) →
        toSizeT (toInt (b.size_status - 100) - 16) > 0) ∧
    ((Mem_Alloc 16 [⟨65536, 4080⟩] 100).1 ≠ NULL →
      (Mem_Alloc 16 [⟨65536, 4080⟩] 100).2.length =
        ([⟨65536, 4080⟩] : List block_header).length + 1)) ∧
    (Mem_Alloc 16 [⟨65536, 4080⟩] 100).1 ≠ NULL ∧
    (Mem_Alloc 16 [⟨65536, 4080⟩] 100).2.length = 2 :=
  ⟨by decide, by decide, reachable_init,
    C20_alloc_succeeds_iff_room_for_split 16 4096 4096 65536 (by decide) (by decide)
      [⟨65536, 4080⟩] reachable_init 100 100 (by decide) (by decide) (by decide) (by decide)
      (by decide),
    by decide, by decide⟩

end Mem
